import Mathlib

/-!
# Verification of the `famtree` flat-tree layout engine

A shallow embedding of `src/flat-tree.js`: the layout configuration, the
relationship index, the breadth-first generation assigner, the hardcoded
family-unit tree, the bottom-up width pass, the top-down position pass and
the connection builder, together with theorems checking the specification's
claims against these definitions.

Coordinates and widths are embedded as rational numbers (`Rat`): the
JavaScript arithmetic used by the engine — addition, subtraction,
multiplication by integer constants, `max`, and halving — is exact on the
dyadic rationals that actually arise, so `Rat` mirrors it faithfully.
All definitions are total; the engine raises no errors on any input.
-/

namespace FamTree

/-- Layout tuning constants (`LAYOUT` object in the source), made a
parameter so theorems can quantify over gap configurations. -/
structure Config where
  personWidth : Rat
  personHeight : Rat
  coupleGap : Rat
  siblingGap : Rat
  familyGap : Rat
  generationGap : Rat
  padding : Rat
deriving DecidableEq, Repr

/-- The source's hardcoded `LAYOUT` constants. -/
def LAYOUT : Config :=
  { personWidth := 58
  , personHeight := 78
  , coupleGap := -6
  , siblingGap := 8
  , familyGap := 35
  , generationGap := 90
  , padding := 15 }

/-- A person record (only the fields the layout engine reads). -/
structure Person where
  id : String
  name : String
  gender : String
deriving DecidableEq, Repr

/-- A family: up to two partner ids and an ordered list of child ids. -/
structure Family where
  partners : List String
  children : List String
deriving DecidableEq, Repr

/-- Input dataset: people, families and the hidden-id list. -/
structure Data where
  people : List Person
  families : List Family
  hidden : List String
deriving DecidableEq, Repr

/-! ## Association lists

JavaScript `Map`s keyed by person id are embedded as association lists:
`aset` prepends and `aget` returns the most recently set binding. -/

/-- Most-recent binding for key `k` (model of `Map.get`). -/
def aget {α : Type} : List (String × α) → String → Option α
  | [], _ => none
  | (k', v) :: rest, k => if k' = k then some v else aget rest k

/-- Set a binding (model of `Map.set`). -/
def aset {α : Type} (m : List (String × α)) (k : String) (v : α) :
    List (String × α) :=
  (k, v) :: m

/-- Key-presence test (model of `Map.has`). -/
def ahas {α : Type} (m : List (String × α)) (k : String) : Bool :=
  (aget m k).isSome

@[simp] theorem aget_nil {α : Type} (k : String) :
    aget ([] : List (String × α)) k = none := rfl

@[simp] theorem aget_cons {α : Type} (k' k : String) (v : α)
    (rest : List (String × α)) :
    aget ((k', v) :: rest) k = if k' = k then some v else aget rest k := rfl

theorem aget_mem {α : Type} {m : List (String × α)} {k : String} {v : α}
    (h : aget m k = some v) : (k, v) ∈ m := by
  induction m with
  | nil => simp [aget] at h
  | cons p rest ih =>
    obtain ⟨k', v'⟩ := p
    rw [aget_cons] at h
    by_cases hk : k' = k
    · simp [hk] at h
      exact hk ▸ h ▸ List.mem_cons_self _ _
    · simp [hk] at h
      exact List.mem_cons_of_mem _ (ih h)

/-! ## Relationship index (`buildRelationships` and the `people` map) -/

/-- The `people` map built in the constructor: people indexed by id,
hidden ids excluded.  Only membership of ids is consumed downstream. -/
def visiblePeople (d : Data) : List Person :=
  d.people.filter (fun p => decide (p.id ∉ d.hidden))

/-- Ids present in the `people` map. -/
def peopleIds (d : Data) : List String :=
  (visiblePeople d).map Person.id

/-- `this.people.has(id)`. -/
def peopleHas (d : Data) (id : String) : Bool :=
  decide (id ∈ peopleIds d)

/-- The `childOf` index: `personId -> family where they're a child`,
built by one pass over the families, skipping hidden child ids. -/
def childOf (d : Data) : List (String × Family) :=
  d.families.foldl
    (fun m fam =>
      fam.children.foldl
        (fun m childId =>
          if childId ∈ d.hidden then m else aset m childId fam)
        m)
    []

/-- The `parentIn` index: `personId -> families where they're a partner`,
built by one pass over the families, skipping hidden partner ids. -/
def parentIn (d : Data) : List (String × List Family) :=
  d.families.foldl
    (fun m fam =>
      fam.partners.foldl
        (fun m partnerId =>
          if partnerId ∈ d.hidden then m
          else
            match aget m partnerId with
            | none => aset m partnerId [fam]
            | some fams => aset m partnerId (fams ++ [fam]))
        m)
    []

/-! ## Family units (`buildFamilyUnits`)

A unit carries either a `partners` array or a `single` id, plus child
units.  The `dashed`/`isNephew` flags on two units in the source are
never read by the layout passes and are omitted. -/

/-- Display unit: `partners` array (when present), `single` id (when
present), and nested child units. -/
inductive FUnit where
  | mk (id : String) (partners : Option (List String))
      (single : Option String) (childUnits : List FUnit)

def FUnit.id : FUnit → String
  | .mk i _ _ _ => i

def FUnit.partners : FUnit → Option (List String)
  | .mk _ p _ _ => p

def FUnit.single : FUnit → Option String
  | .mk _ _ s _ => s

def FUnit.childUnits : FUnit → List FUnit
  | .mk _ _ _ c => c

/-- Helper mirroring a `{ id, partners, childUnits }` literal. -/
def couple (id : String) (a b : String) (kids : List FUnit) : FUnit :=
  .mk id (some [a, b]) none kids

/-- Helper mirroring a `{ id, single, childUnits }` literal. -/
def solo (id : String) (s : String) (kids : List FUnit) : FUnit :=
  .mk id none (some s) kids

/-- Helper mirroring a `{ id, partners: [x], childUnits }` literal. -/
def soloPartner (id : String) (a : String) (kids : List FUnit) : FUnit :=
  .mk id (some [a]) none kids

/-- The root list returned by `buildFamilyUnits`.  The source method reads
nothing from the layout object: it returns this fixed literal tree for
every dataset. -/
def buildFamilyUnits (_d : Data) : List FUnit :=
  [ couple "ham-popo" "X2" "X1"
      [ couple "yan-fun" "F7" "M11" [] ]
  , couple "peter-cora" "M7" "M8"
      [ solo "hong" "M1" []
      , solo "michelle" "M9" [] ]
  , soloPartner "siukee" "X6"
      [ solo "rex" "M2" [] ]
  , couple "yehyeh-mama" "X4" "X5"
      [ couple "unclema-auntma" "F3" "F2"
          [ couple "adrien-ada" "M3" "M4"
              [ solo "siah" "B3" [] ] ]
      , couple "ernest-amy" "F5" "F6"
          [ couple "stanley-angela" "B1" "B2" []
          , couple "wilfred-mary" "B12" "B11"
              [ solo "zachary" "B6" []
              , solo "xavier" "B8" []
              , solo "sebastian" "B4" [] ]
          , couple "stewart-mae" "B10" "B9"
              [ solo "kayley" "B5" []
              , solo "chloe" "B7" [] ] ]
      , solo "gooma2" "F4"
          [ solo "ahfat" "M14" [] ]
      , solo "gooma3" "X3"
          [ couple "keith-manyi" "F1" "M6"
              [ solo "natalie" "M10" [] ]
          , solo "cherry" "M5" [] ] ] ]

/-! ## Width pass (`calculateWidths`)

The JavaScript pass mutates `selfWidth`/`childrenWidth`/`totalWidth`
fields onto each unit; the embedding returns an annotated copy. -/

/-- A unit annotated with the widths computed by `calculateWidths`. -/
inductive WUnit where
  | mk (id : String) (partners : Option (List String))
      (single : Option String)
      (selfWidth childrenWidth totalWidth : Rat)
      (childUnits : List WUnit)

def WUnit.id : WUnit → String
  | .mk i _ _ _ _ _ _ => i

def WUnit.partners : WUnit → Option (List String)
  | .mk _ p _ _ _ _ _ => p

def WUnit.single : WUnit → Option String
  | .mk _ _ s _ _ _ _ => s

def WUnit.selfWidth : WUnit → Rat
  | .mk _ _ _ sw _ _ _ => sw

def WUnit.childrenWidth : WUnit → Rat
  | .mk _ _ _ _ cw _ _ => cw

def WUnit.totalWidth : WUnit → Rat
  | .mk _ _ _ _ _ tw _ => tw

def WUnit.childUnits : WUnit → List WUnit
  | .mk _ _ _ _ _ _ c => c

/-- The children-width accumulation loop:
`childrenWidth += child.totalWidth; if (i > 0) childrenWidth += siblingGap`. -/
def childrenWidthLoop (cfg : Config) (kids : List WUnit) : Rat :=
  (kids.enum.foldl
    (fun acc iw =>
      acc + iw.2.totalWidth + (if iw.1 > 0 then cfg.siblingGap else 0))
    0)

/-- `selfWidth`: `personWidth`, or the couple width when the unit has a
`partners` array with exactly two ids present in the `people` map. -/
def selfWidthOf (cfg : Config) (ppl : List String) (u : FUnit) : Rat :=
  match u.partners with
  | some ps =>
      if (ps.filter (fun i => decide (i ∈ ppl))).length = 2 then
        cfg.personWidth * 2 + cfg.coupleGap
      else cfg.personWidth
  | none => cfg.personWidth

mutual
/-- `calcWidth`: post-order width computation for one unit. -/
def calcWidth (cfg : Config) (ppl : List String) : FUnit → WUnit
  | .mk id partners single kids =>
      let selfWidth :=
        selfWidthOf cfg ppl (.mk id partners single kids)
      let wkids := calcWidthList cfg ppl kids
      if wkids.length > 0 then
        let childrenWidth := childrenWidthLoop cfg wkids
        .mk id partners single selfWidth childrenWidth
          (max selfWidth childrenWidth) wkids
      else
        .mk id partners single selfWidth 0 selfWidth wkids

/-- `calcWidth` mapped over a list of sibling units. -/
def calcWidthList (cfg : Config) (ppl : List String) :
    List FUnit → List WUnit
  | [] => []
  | u :: us => calcWidth cfg ppl u :: calcWidthList cfg ppl us
end

/-- `calculateWidths`: annotate every root unit. -/
def calculateWidths (cfg : Config) (ppl : List String)
    (rootUnits : List FUnit) : List WUnit :=
  calcWidthList cfg ppl rootUnits

/-! ## Position pass (`positionUnits` / `positionUnit`) -/

/-- A computed position: top-left corner plus owning unit id. -/
structure Pos where
  x : Rat
  y : Rat
  unitId : String
deriving DecidableEq, Repr

/-- The positions map under construction. -/
def PosMap := List (String × Pos)

mutual
/-- `positionUnit`: place a unit's own people centered in its band
`[x, x + totalWidth)`, then place its children centered under `centerX`
in the next row.  Returns the updated positions map. -/
def positionUnit (cfg : Config) (ppl : List String) (u : WUnit)
    (x y : Rat) (depth : Nat) (pos : List (String × Pos)) :
    List (String × Pos) :=
  match u with
  | .mk id partners single sw cw tw kids =>
      let centerX := x + tw / 2
      let unitStartX := centerX - sw / 2
      let pos1 :=
        match partners with
        | some psIds =>
            match psIds.filter (fun i => decide (i ∈ ppl)) with
            | [a, b] =>
                aset (aset pos a ⟨unitStartX, y, id⟩) b
                  ⟨unitStartX + cfg.personWidth + cfg.coupleGap, y, id⟩
            | [a] => aset pos a ⟨unitStartX, y, id⟩
            | _ => pos
        | none =>
            match single with
            | some s =>
                if s ∈ ppl then aset pos s ⟨unitStartX, y, id⟩ else pos
            | none => pos
      if kids.length > 0 then
        (positionUnitList cfg ppl kids true (centerX - cw / 2)
          (y + cfg.generationGap) (depth + 1) pos1).1
      else pos1

/-- The children loop of `positionUnit`:
`if (i > 0) childX += siblingGap; positionUnit(child, childX, …);
childX += child.totalWidth`.  Returns the updated positions map together
with the final value of the `childX` cursor. -/
def positionUnitList (cfg : Config) (ppl : List String)
    (kids : List WUnit) (first : Bool) (childX childY : Rat)
    (depth : Nat) (pos : List (String × Pos)) :
    List (String × Pos) × Rat :=
  match kids with
  | [] => (pos, childX)
  | k :: ks =>
      let cx := if first then childX else childX + cfg.siblingGap
      let pos' := positionUnit cfg ppl k cx childY depth pos
      positionUnitList cfg ppl ks false (cx + k.totalWidth) childY
        depth pos'
end

/-- The root loop of `positionUnits`:
`if (i > 0) x += familyGap; positionUnit(root, x, y, 0); x += totalWidth`. -/
def positionRootList (cfg : Config) (ppl : List String)
    (rootUnits : List WUnit) (first : Bool) (x y : Rat)
    (pos : List (String × Pos)) : List (String × Pos) × Rat :=
  match rootUnits with
  | [] => (pos, x)
  | r :: rs =>
      let x' := if first then x else x + cfg.familyGap
      let pos' := positionUnit cfg ppl r x' y 0 pos
      positionRootList cfg ppl rs false (x' + r.totalWidth) y pos'

/-- `positionUnits`: lay the root units out left to right starting at
`(padding, padding)`. -/
def positionUnits (cfg : Config) (ppl : List String)
    (rootUnits : List WUnit) : List (String × Pos) :=
  (positionRootList cfg ppl rootUnits true cfg.padding cfg.padding []).1

/-- The position map produced by a full layout run
(`calculateLayout` up to the position pass; the generation numbers it
also computes are not consumed by the unit-tree passes). -/
def layoutPositions (cfg : Config) (d : Data) : List (String × Pos) :=
  positionUnits cfg (peopleIds d)
    (calculateWidths cfg (peopleIds d) (buildFamilyUnits d))

/-! ## Connection builder (`buildConnections`) -/

/-- One declared `{ parents, children, type }` tuple. -/
structure ConnSpec where
  parents : List String
  children : List String
  ctype : String
deriving DecidableEq, Repr

/-- The hardcoded `familyConnections` list. -/
def familyConnections : List ConnSpec :=
  [ ⟨["X2", "X1"], ["F6"], "normal"⟩
  , ⟨["M7", "M8"], ["M1", "M9"], "normal"⟩
  , ⟨["X6"], ["M2"], "normal"⟩
  , ⟨["X4", "X5"], ["F4", "F5", "X3"], "normal"⟩
  , ⟨["F3", "F2"], ["M4"], "normal"⟩
  , ⟨["F5", "F6"], ["B1", "B11", "B10"], "normal"⟩
  , ⟨["M3", "M4"], ["B3"], "normal"⟩
  , ⟨["B12", "B11"], ["B6", "B8", "B4"], "normal"⟩
  , ⟨["B10", "B9"], ["B5", "B7"], "normal"⟩
  , ⟨["X3"], ["M6", "M5"], "normal"⟩
  , ⟨["F1", "M6"], ["M10"], "normal"⟩
  , ⟨["F4"], ["M14"], "dashed"⟩ ]

/-- An emitted connection record. -/
inductive Connection where
  | parentChild (style : String) (parents : List Pos)
      (children : List (String × Pos))
  | nephew (src dst : Pos)
deriving DecidableEq, Repr

/-- `buildConnections`: filter each declared tuple against the position
map, emit a record only when both filtered sides are nonempty, then add
the nephew link when both its endpoints are placed. -/
def buildConnections (pos : List (String × Pos)) : List Connection :=
  let conns :=
    familyConnections.foldl
      (fun acc conn =>
        let parentPositions :=
          (conn.parents.filter (fun i => ahas pos i)).filterMap
            (fun i => aget pos i)
        let childPositions :=
          (conn.children.filter (fun i => ahas pos i)).filterMap
            (fun i => (aget pos i).map (fun p => (i, p)))
        if parentPositions.length > 0 ∧ childPositions.length > 0 then
          acc ++ [.parentChild conn.ctype parentPositions childPositions]
        else acc)
      []
  match aget pos "X1", aget pos "F7" with
  | some p1, some p7 => conns ++ [.nephew p1 p7]
  | _, _ => conns

/-- Parent anchor abscissa computed by `drawParentChildConnection`
(the `parents` list of an emitted connection is never empty; the `[]`
case is unreachable and returns a junk value). -/
def parentCenterX (cfg : Config) (parents : List Pos) : Rat :=
  match parents with
  | [p0, p1] => (p0.x + p1.x + cfg.personWidth) / 2 + cfg.coupleGap / 2
  | p0 :: _ => p0.x + cfg.personWidth / 2
  | [] => 0

/-! ## Canvas dimensions (`renderFlatTree`) -/

/-- `maxX = max over positions of (x + personWidth)` (starting at 0). -/
def canvasMaxX (cfg : Config) (pos : List (String × Pos)) : Rat :=
  pos.foldl (fun m e => max m (e.2.x + cfg.personWidth)) 0

/-- `maxY = max over positions of (y + personHeight)` (starting at 0). -/
def canvasMaxY (cfg : Config) (pos : List (String × Pos)) : Rat :=
  pos.foldl (fun m e => max m (e.2.y + cfg.personHeight)) 0

/-- Container width `maxX + padding`. -/
def canvasWidth (cfg : Config) (pos : List (String × Pos)) : Rat :=
  canvasMaxX cfg pos + cfg.padding

/-- Container height `maxY + padding + 20`. -/
def canvasHeight (cfg : Config) (pos : List (String × Pos)) : Rat :=
  canvasMaxY cfg pos + cfg.padding + 20

/-! ## Generation assigner (`calculateGenerations`) -/

/-- Root people: visible people with no `childOf` entry, in `people`-map
iteration order. -/
def rootIds (d : Data) : List String :=
  (peopleIds d).filter (fun id => !(ahas (childOf d) id))

/-- Queue entries pushed when `id` is visited at generation `gen`: for
each family `id` is a partner in, each child that is unvisited and
present in the `people` map, at generation `gen + 1`. -/
def bfsChildren (d : Data) (visited : List String) (id : String)
    (gen : Nat) : List (String × Nat) :=
  ((aget (parentIn d) id).getD []).flatMap
    (fun fam =>
      (fam.children.filter
        (fun c => decide (c ∉ visited) && peopleHas d c)).map
        (fun c => (c, gen + 1)))

theorem bfsChildren_mem_peopleIds {d : Data} {visited : List String}
    {id : String} {gen : Nat} {e : String × Nat}
    (h : e ∈ bfsChildren d visited id gen) : e.1 ∈ peopleIds d := by
  simp only [bfsChildren, List.mem_flatMap, List.mem_map, List.mem_filter,
    Bool.and_eq_true, decide_eq_true_eq, peopleHas] at h
  obtain ⟨fam, _, c, ⟨_, _, hc⟩, rfl⟩ := h
  exact hc

/-- Termination measure for the BFS queue loop: the number of ids among
the visible people and the queued entries that are not yet visited. -/
def bfsMeasure (d : Data) (queue : List (String × Nat))
    (visited : List String) : Nat :=
  (((peopleIds d).toFinset ∪ (queue.map Prod.fst).toFinset) \
    visited.toFinset).card

theorem bfsMeasure_skip (d : Data) (id : String) (gen : Nat)
    (rest : List (String × Nat)) (visited : List String)
    (h : id ∈ visited) :
    bfsMeasure d ((id, gen) :: rest) visited =
      bfsMeasure d rest visited := by
  unfold bfsMeasure
  congr 1
  rw [List.map_cons, List.toFinset_cons, Finset.union_insert,
    Finset.insert_sdiff_of_mem]
  simpa using h

theorem bfsMeasure_visit (d : Data) (id : String) (gen : Nat)
    (rest : List (String × Nat)) (visited : List String)
    (h : id ∉ visited) :
    bfsMeasure d (rest ++ bfsChildren d (id :: visited) id gen)
        (id :: visited) <
      bfsMeasure d ((id, gen) :: rest) visited := by
  apply Finset.card_lt_card
  rw [Finset.ssubset_iff_of_subset]
  · refine ⟨id, ?_, ?_⟩
    · simp [bfsMeasure, h]
    · simp [bfsMeasure]
  · intro x hx
    simp only [bfsMeasure, Finset.mem_sdiff, Finset.mem_union,
      List.mem_toFinset, List.toFinset_cons, Finset.mem_insert,
      List.map_append, List.map_cons, List.mem_append] at hx ⊢
    obtain ⟨hsrc, hnv⟩ := hx
    refine ⟨?_, fun hv => hnv (Or.inr hv)⟩
    rcases hsrc with hp | hq
    · exact Or.inl hp
    · rcases hq with hr | hn
      · exact Or.inr (Or.inr hr)
      · obtain ⟨e, he, rfl⟩ := List.mem_map.mp hn
        exact Or.inl (bfsChildren_mem_peopleIds he)

/-- The BFS queue loop of `calculateGenerations`: pop in FIFO order,
skip visited ids, otherwise record the generation and enqueue the
person's family children at `gen + 1`. -/
def bfs (d : Data) (queue : List (String × Nat)) (visited : List String)
    (gens : List (String × Nat)) : List (String × Nat) :=
  match queue with
  | [] => gens
  | (id, gen) :: rest =>
      if h : id ∈ visited then bfs d rest visited gens
      else
        bfs d (rest ++ bfsChildren d (id :: visited) id gen)
          (id :: visited) (aset gens id gen)
termination_by (bfsMeasure d queue visited, queue.length)
decreasing_by
  · rw [bfsMeasure_skip d id gen rest visited h]
    exact Prod.Lex.right _ (Nat.lt_succ_self _)
  · exact Prod.Lex.left _ _ (bfsMeasure_visit d id gen rest visited h)

/-- The BFS phase: seed the queue with the roots at generation 0. -/
def bfsGenerations (d : Data) : List (String × Nat) :=
  bfs d ((rootIds d).map (fun id => (id, 0))) [] []

/-- `calculateGenerations`: BFS from the roots, then default every
still-unassigned visible person to generation 0. -/
def calculateGenerations (d : Data) : List (String × Nat) :=
  (peopleIds d).foldl
    (fun g id => if ahas g id then g else aset g id 0)
    (bfsGenerations d)

/-! ## Lemmas about the width pass -/

theorem calcWidthList_length (cfg : Config) (ppl : List String) :
    ∀ us : List FUnit, (calcWidthList cfg ppl us).length = us.length
  | [] => by rw [calcWidthList]; rfl
  | u :: us => by
      rw [calcWidthList, List.length_cons, List.length_cons,
        calcWidthList_length cfg ppl us]

theorem calcWidth_mk (cfg : Config) (ppl : List String) (id : String)
    (ps : Option (List String)) (s : Option String) (kids : List FUnit) :
    calcWidth cfg ppl (.mk id ps s kids) =
      if kids.length > 0 then
        WUnit.mk id ps s (selfWidthOf cfg ppl (.mk id ps s kids))
          (childrenWidthLoop cfg (calcWidthList cfg ppl kids))
          (max (selfWidthOf cfg ppl (.mk id ps s kids))
            (childrenWidthLoop cfg (calcWidthList cfg ppl kids)))
          (calcWidthList cfg ppl kids)
      else
        WUnit.mk id ps s (selfWidthOf cfg ppl (.mk id ps s kids)) 0
          (selfWidthOf cfg ppl (.mk id ps s kids))
          (calcWidthList cfg ppl kids) := by
  rw [calcWidth]
  simp only [calcWidthList_length]

theorem calcWidth_id (cfg : Config) (ppl : List String) (u : FUnit) :
    (calcWidth cfg ppl u).id = u.id := by
  obtain ⟨id, ps, s, kids⟩ := u
  rw [calcWidth_mk]
  split <;> rfl

theorem calcWidth_partners (cfg : Config) (ppl : List String) (u : FUnit) :
    (calcWidth cfg ppl u).partners = u.partners := by
  obtain ⟨id, ps, s, kids⟩ := u
  rw [calcWidth_mk]
  split <;> rfl

theorem calcWidth_single (cfg : Config) (ppl : List String) (u : FUnit) :
    (calcWidth cfg ppl u).single = u.single := by
  obtain ⟨id, ps, s, kids⟩ := u
  rw [calcWidth_mk]
  split <;> rfl

theorem calcWidth_childUnits (cfg : Config) (ppl : List String)
    (u : FUnit) :
    (calcWidth cfg ppl u).childUnits = calcWidthList cfg ppl u.childUnits := by
  obtain ⟨id, ps, s, kids⟩ := u
  rw [calcWidth_mk]
  split <;> rfl

theorem calcWidth_selfWidth (cfg : Config) (ppl : List String)
    (u : FUnit) :
    (calcWidth cfg ppl u).selfWidth = selfWidthOf cfg ppl u := by
  obtain ⟨id, ps, s, kids⟩ := u
  rw [calcWidth_mk]
  split <;> rfl

theorem calcWidth_childrenWidth_leaf (cfg : Config) (ppl : List String)
    (id : String) (ps : Option (List String)) (s : Option String) :
    (calcWidth cfg ppl (.mk id ps s [])).childrenWidth = 0 := by
  rw [calcWidth_mk]; rfl

theorem calcWidth_childrenWidth_cons (cfg : Config) (ppl : List String)
    (id : String) (ps : Option (List String)) (s : Option String)
    (k : FUnit) (ks : List FUnit) :
    (calcWidth cfg ppl (.mk id ps s (k :: ks))).childrenWidth =
      childrenWidthLoop cfg (calcWidthList cfg ppl (k :: ks)) := by
  rw [calcWidth_mk]
  simp [WUnit.childrenWidth]

theorem calcWidth_totalWidth_leaf (cfg : Config) (ppl : List String)
    (id : String) (ps : Option (List String)) (s : Option String) :
    (calcWidth cfg ppl (.mk id ps s [])).totalWidth =
      selfWidthOf cfg ppl (.mk id ps s []) := by
  rw [calcWidth_mk]; rfl

theorem calcWidth_totalWidth_cons (cfg : Config) (ppl : List String)
    (id : String) (ps : Option (List String)) (s : Option String)
    (k : FUnit) (ks : List FUnit) :
    (calcWidth cfg ppl (.mk id ps s (k :: ks))).totalWidth =
      max (selfWidthOf cfg ppl (.mk id ps s (k :: ks)))
        (childrenWidthLoop cfg (calcWidthList cfg ppl (k :: ks))) := by
  rw [calcWidth_mk]
  simp [WUnit.totalWidth]

/-- The inner accumulation of `childrenWidthLoop` over `enumFrom`:
once past the first position, every element adds its width plus one gap. -/
theorem childrenWidthLoop_enumFrom (cfg : Config) (ws : List WUnit) :
    ∀ (n : Nat) (acc : Rat), 1 ≤ n →
      (ws.enumFrom n).foldl
        (fun acc iw =>
          acc + iw.2.totalWidth + (if iw.1 > 0 then cfg.siblingGap else 0))
        acc =
      acc + (ws.map WUnit.totalWidth).sum + cfg.siblingGap * ws.length := by
  induction ws with
  | nil => intro n acc _; simp
  | cons w ws ih =>
      intro n acc hn
      rw [List.enumFrom_cons, List.foldl_cons,
        ih (n + 1) _ (Nat.le_succ_of_le hn)]
      have : n > 0 := hn
      simp only [this, if_pos, List.map_cons, List.sum_cons,
        List.length_cons]
      push_cast
      ring

/-- `childrenWidth` accumulated by the loop equals
`sum of child totalWidths + siblingGap * (childCount - 1)`. -/
theorem childrenWidthLoop_eq (cfg : Config) (w : WUnit) (ws : List WUnit) :
    childrenWidthLoop cfg (w :: ws) =
      ((w :: ws).map WUnit.totalWidth).sum +
        cfg.siblingGap * (((w :: ws).length : Rat) - 1) := by
  rw [childrenWidthLoop, List.enum_cons, List.foldl_cons,
    childrenWidthLoop_enumFrom cfg ws 1 _ le_rfl]
  simp only [gt_iff_lt, lt_self_iff_false, if_neg, if_false,
    List.map_cons, List.sum_cons, List.length_cons]
  push_cast
  ring

theorem selfWidthOf_nonneg (cfg : Config) (ppl : List String) (u : FUnit)
    (hw : 0 ≤ cfg.personWidth) (hc : 0 ≤ cfg.personWidth * 2 + cfg.coupleGap) :
    0 ≤ selfWidthOf cfg ppl u := by
  rw [selfWidthOf]
  rcases u.partners with _ | ps
  · exact hw
  · dsimp only
    split
    · exact hc
    · exact hw

/-! ## Claim C2 -/

/-- C2: the width pass computes `childrenWidth = 0` for leaf units and
`sum of the child units' totalWidth + siblingGap * (childCount - 1)` for
internal units, and `totalWidth = max(selfWidth, childrenWidth)`;
consequently, for nonnegative gap configurations, `totalWidth ≥ selfWidth`
and `totalWidth ≥ childrenWidth` for every unit. -/
theorem claim_c2_widths (cfg : Config) (ppl : List String) (u : FUnit)
    (hw : 0 ≤ cfg.personWidth) (hc : 0 ≤ cfg.coupleGap) :
    ((u.childUnits = [] → (calcWidth cfg ppl u).childrenWidth = 0)
    ∧ (u.childUnits ≠ [] →
        (calcWidth cfg ppl u).childrenWidth =
          (((calcWidth cfg ppl u).childUnits.map WUnit.totalWidth).sum +
            cfg.siblingGap * ((u.childUnits.length : Rat) - 1))))
    ∧ (calcWidth cfg ppl u).totalWidth =
        max (calcWidth cfg ppl u).selfWidth
          (calcWidth cfg ppl u).childrenWidth
    ∧ (calcWidth cfg ppl u).selfWidth ≤ (calcWidth cfg ppl u).totalWidth
    ∧ (calcWidth cfg ppl u).childrenWidth ≤
        (calcWidth cfg ppl u).totalWidth := by
  have hsw : 0 ≤ selfWidthOf cfg ppl u :=
    selfWidthOf_nonneg cfg ppl u hw (by linarith)
  obtain ⟨id, ps, s, kids⟩ := u
  rcases kids with _ | ⟨k, ks⟩
  · have hcw := calcWidth_childrenWidth_leaf cfg ppl id ps s
    have htw := calcWidth_totalWidth_leaf cfg ppl id ps s
    have hsw' := calcWidth_selfWidth cfg ppl (.mk id ps s [])
    refine ⟨⟨fun _ => hcw, fun h => absurd rfl h⟩, ?_, ?_, ?_⟩
    · rw [htw, hcw, hsw', max_eq_left hsw]
    · rw [htw, hsw']
    · rw [htw, hcw]; exact hsw
  · have hcw := calcWidth_childrenWidth_cons cfg ppl id ps s k ks
    have htw := calcWidth_totalWidth_cons cfg ppl id ps s k ks
    have hsw' := calcWidth_selfWidth cfg ppl (.mk id ps s (k :: ks))
    have hku := calcWidth_childUnits cfg ppl (.mk id ps s (k :: ks))
    refine ⟨⟨fun h => by simp [FUnit.childUnits] at h, fun _ => ?_⟩,
      ?_, ?_, ?_⟩
    · rw [hcw, hku]
      rcases hk : calcWidthList cfg ppl (k :: ks) with _ | ⟨w, ws⟩
      · have := calcWidthList_length cfg ppl (k :: ks)
        rw [hk] at this
        simp at this
      · rw [childrenWidthLoop_eq, ← hk, calcWidthList_length]
        rfl
    · rw [htw, hcw, hsw']
    · rw [htw, hsw']; exact le_max_left _ _
    · rw [htw, hcw]; exact le_max_right _ _

/-- The spec's §8 example configuration
(`personWidth=60, coupleGap=10, siblingGap=20`). -/
def specCfg : Config :=
  { personWidth := 60
  , personHeight := 78
  , coupleGap := 10
  , siblingGap := 20
  , familyGap := 35
  , generationGap := 90
  , padding := 15 }

/-- Witness for C2 at the spec's example configuration and the example
couple `A`,`B` with single child `C`. -/
theorem claim_c2_widths_witness :
    (0 : Rat) ≤ specCfg.personWidth ∧ (0 : Rat) ≤ specCfg.coupleGap ∧
      (calcWidth specCfg ["A", "B", "C"]
          (couple "AB" "A" "B" [solo "c" "C" []])).totalWidth =
        max (calcWidth specCfg ["A", "B", "C"]
            (couple "AB" "A" "B" [solo "c" "C" []])).selfWidth
          (calcWidth specCfg ["A", "B", "C"]
            (couple "AB" "A" "B" [solo "c" "C" []])).childrenWidth :=
  ⟨by norm_num [specCfg], by norm_num [specCfg],
    (claim_c2_widths specCfg ["A", "B", "C"]
      (couple "AB" "A" "B" [solo "c" "C" []])
      (by norm_num [specCfg]) (by norm_num [specCfg])).2.1⟩

/-! ## Lemmas about the position pass -/

mutual
/-- `positionUnit` only adds entries: existing entries survive. -/
theorem positionUnit_mono : ∀ (cfg : Config) (ppl : List String)
    (u : WUnit) (x y : Rat) (depth : Nat) (pos : List (String × Pos))
    (e : String × Pos), e ∈ pos → e ∈ positionUnit cfg ppl u x y depth pos
  | cfg, ppl, .mk id partners single sw cw tw kids, x, y, depth, pos,
      e, he => by
    rw [positionUnit.eq_def]
    dsimp only
    have h1 :
        ∀ pos1 : List (String × Pos), e ∈ pos1 →
          e ∈ (if kids.length > 0 then
            (positionUnitList cfg ppl kids true
              (x + tw / 2 - cw / 2) (y + cfg.generationGap)
              (depth + 1) pos1).1
          else pos1) := by
      intro pos1 h
      split
      · exact positionUnitList_mono cfg ppl kids true _ _ _ pos1 e h
      · exact h
    rcases partners with _ | ps
    · rcases single with _ | s
      · exact h1 pos he
      · refine h1 _ ?_
        by_cases hs : s ∈ ppl
        · simp only [if_pos hs]
          exact List.mem_cons_of_mem _ he
        · simp only [if_neg hs]
          exact he
    · dsimp only
      rcases hf : ps.filter (fun i => decide (i ∈ ppl)) with _ | ⟨a, bs⟩
      · exact h1 pos he
      · rcases bs with _ | ⟨b, cs⟩
        · exact h1 _ (List.mem_cons_of_mem _ he)
        · rcases cs with _ | _
          · exact h1 _
              (List.mem_cons_of_mem _ (List.mem_cons_of_mem _ he))
          · exact h1 pos he

/-- `positionUnitList` only adds entries: existing entries survive. -/
theorem positionUnitList_mono : ∀ (cfg : Config) (ppl : List String)
    (ks : List WUnit) (first : Bool) (cx cy : Rat) (depth : Nat)
    (pos : List (String × Pos)) (e : String × Pos), e ∈ pos →
    e ∈ (positionUnitList cfg ppl ks first cx cy depth pos).1
  | cfg, ppl, [], first, cx, cy, depth, pos, e, he => by
      rw [positionUnitList.eq_def]; exact he
  | cfg, ppl, k :: ks, first, cx, cy, depth, pos, e, he => by
      rw [positionUnitList.eq_def]
      dsimp only
      exact positionUnitList_mono cfg ppl ks false _ _ _ _ e
        (positionUnit_mono cfg ppl k _ _ _ _ e he)
end

theorem mem_of_mem_filter_ppl {ps ppl : List String} {x : String}
    (h : x ∈ ps.filter (fun i => decide (i ∈ ppl))) : x ∈ ppl := by
  have := (List.mem_filter.mp h).2
  exact of_decide_eq_true this

mutual
/-- Every entry added by `positionUnit` is keyed by an id present in the
`people` map: hidden or unknown ids are never positioned. -/
theorem positionUnit_mem_visible : ∀ (cfg : Config) (ppl : List String)
    (u : WUnit) (x y : Rat) (depth : Nat) (pos : List (String × Pos))
    (e : String × Pos), e ∈ positionUnit cfg ppl u x y depth pos →
    e ∈ pos ∨ e.1 ∈ ppl
  | cfg, ppl, .mk id partners single sw cw tw kids, x, y, depth, pos,
      e, he => by
    rw [positionUnit.eq_def] at he
    dsimp only at he
    have h1 :
        ∀ pos1 : List (String × Pos),
          e ∈ (if kids.length > 0 then
            (positionUnitList cfg ppl kids true
              (x + tw / 2 - cw / 2) (y + cfg.generationGap)
              (depth + 1) pos1).1
          else pos1) →
          e ∈ pos1 ∨ e.1 ∈ ppl := by
      intro pos1 h
      split at h
      · exact positionUnitList_mem_visible cfg ppl kids true _ _ _
          pos1 e h
      · exact Or.inl h
    have h2 := h1 _ he
    clear he
    rcases partners with _ | ps
    · rcases single with _ | s
      · exact h2
      · try dsimp only at h2
        rcases h2 with h2 | h2
        · by_cases hs : s ∈ ppl
          · rw [if_pos hs] at h2
            rcases List.mem_cons.mp h2 with h3 | h3
            · right; rw [h3]; exact hs
            · exact Or.inl h3
          · rw [if_neg hs] at h2
            exact Or.inl h2
        · exact Or.inr h2
    · try dsimp only at h2
      rcases hf : ps.filter (fun i => decide (i ∈ ppl)) with _ | ⟨a, bs⟩ <;>
        rw [hf] at h2 <;> try dsimp only at h2
      · exact h2
      · rcases bs with _ | ⟨b, cs⟩ <;> try dsimp only at h2
        · rcases h2 with h2 | h2
          · rcases List.mem_cons.mp h2 with h3 | h3
            · right; rw [h3]
              exact mem_of_mem_filter_ppl (hf ▸ List.mem_cons_self a [])
            · exact Or.inl h3
          · exact Or.inr h2
        · rcases cs with _ | _ <;> try dsimp only at h2
          · rcases h2 with h2 | h2
            · rcases List.mem_cons.mp h2 with h3 | h3
              · right; rw [h3]
                exact mem_of_mem_filter_ppl
                  (hf ▸ List.mem_cons_of_mem a (List.mem_cons_self b []))
              · rcases List.mem_cons.mp h3 with h4 | h4
                · right; rw [h4]
                  exact mem_of_mem_filter_ppl (hf ▸ List.mem_cons_self a _)
                · exact Or.inl h4
            · exact Or.inr h2
          · exact h2

/-- Every entry added by the children loop is keyed by a visible id. -/
theorem positionUnitList_mem_visible : ∀ (cfg : Config)
    (ppl : List String) (ks : List WUnit) (first : Bool) (cx cy : Rat)
    (depth : Nat) (pos : List (String × Pos)) (e : String × Pos),
    e ∈ (positionUnitList cfg ppl ks first cx cy depth pos).1 →
    e ∈ pos ∨ e.1 ∈ ppl
  | cfg, ppl, [], first, cx, cy, depth, pos, e, he => by
      rw [positionUnitList.eq_def] at he; exact Or.inl he
  | cfg, ppl, k :: ks, first, cx, cy, depth, pos, e, he => by
      rw [positionUnitList.eq_def] at he
      dsimp only at he
      rcases positionUnitList_mem_visible cfg ppl ks false _ _ _ _ e he
        with h | h
      · exact positionUnit_mem_visible cfg ppl k _ _ _ _ e h
      · exact Or.inr h
end

/-- Every entry added by the root loop is keyed by a visible id. -/
theorem positionRootList_mem_visible : ∀ (cfg : Config)
    (ppl : List String) (rs : List WUnit) (first : Bool) (x y : Rat)
    (pos : List (String × Pos)) (e : String × Pos),
    e ∈ (positionRootList cfg ppl rs first x y pos).1 →
    e ∈ pos ∨ e.1 ∈ ppl
  | cfg, ppl, [], first, x, y, pos, e, he => by
      rw [positionRootList.eq_def] at he; exact Or.inl he
  | cfg, ppl, r :: rs, first, x, y, pos, e, he => by
      rw [positionRootList.eq_def] at he
      dsimp only at he
      rcases positionRootList_mem_visible cfg ppl rs false _ _ _ e he
        with h | h
      · exact positionUnit_mem_visible cfg ppl r _ _ _ _ e h
      · exact Or.inr h

/-- Every position computed by a full layout run is keyed by an id in the
`people` map. -/
theorem layoutPositions_mem_visible (cfg : Config) (d : Data)
    (e : String × Pos) (he : e ∈ layoutPositions cfg d) :
    e.1 ∈ peopleIds d := by
  rcases positionRootList_mem_visible cfg (peopleIds d) _ true _ _ [] e he
    with h | h
  · cases h
  · exact h

/-! ## Cursor arithmetic of the children loop -/

/-- With `first = false`, the children loop advances the cursor by one
`siblingGap` plus one `totalWidth` per child. -/
theorem positionUnitList_cursor_notfirst (cfg : Config)
    (ppl : List String) : ∀ (ks : List WUnit) (cx cy : Rat)
    (depth : Nat) (pos : List (String × Pos)),
    (positionUnitList cfg ppl ks false cx cy depth pos).2 =
      cx + ((ks.map WUnit.totalWidth).sum +
        cfg.siblingGap * (ks.length : Rat))
  | [], cx, cy, depth, pos => by
      rw [positionUnitList.eq_def]
      simp
  | k :: ks, cx, cy, depth, pos => by
      rw [positionUnitList.eq_def]
      dsimp only
      rw [positionUnitList_cursor_notfirst cfg ppl ks _ _ _ _]
      simp only [Bool.false_eq_true, if_neg, if_false, List.map_cons,
        List.sum_cons, List.length_cons]
      push_cast
      ring

/-- With `first = true`, the children loop advances the cursor by exactly
the accumulated `childrenWidth` of the children. -/
theorem positionUnitList_cursor_first (cfg : Config) (ppl : List String)
    (k : WUnit) (ks : List WUnit) (cx cy : Rat) (depth : Nat)
    (pos : List (String × Pos)) :
    (positionUnitList cfg ppl (k :: ks) true cx cy depth pos).2 =
      cx + childrenWidthLoop cfg (k :: ks) := by
  rw [positionUnitList.eq_def]
  dsimp only
  rw [positionUnitList_cursor_notfirst, childrenWidthLoop_eq]
  simp only [if_pos, List.map_cons, List.sum_cons, List.length_cons]
  push_cast
  ring

/-! ## Width-annotation well-formedness -/

/-- The shape `calculateWidths` guarantees: a nonnegative `selfWidth`,
`totalWidth` dominating both `selfWidth` and `childrenWidth`, recursively
for all child units. -/
def WFw : WUnit → Prop
  | .mk _ _ _ sw cw tw kids =>
      0 ≤ sw ∧ sw ≤ tw ∧ cw ≤ tw ∧ ∀ k ∈ kids, WFw k

theorem WFw_totalWidth_nonneg {u : WUnit} (h : WFw u) :
    0 ≤ u.totalWidth := by
  obtain ⟨id, ps, s, sw, cw, tw, kids⟩ := u
  rw [WFw] at h
  exact le_trans h.1 h.2.1

mutual
/-- The width pass always produces well-formed annotations (for a
configuration with nonnegative person and couple widths). -/
theorem calcWidth_WF : ∀ (cfg : Config) (ppl : List String),
    0 ≤ cfg.personWidth → 0 ≤ cfg.personWidth * 2 + cfg.coupleGap →
    ∀ u : FUnit, WFw (calcWidth cfg ppl u)
  | cfg, ppl, hw, hc, .mk id ps s kids => by
      have hsw : 0 ≤ selfWidthOf cfg ppl (.mk id ps s kids) :=
        selfWidthOf_nonneg cfg ppl _ hw hc
      have hkids : ∀ k ∈ calcWidthList cfg ppl kids, WFw k :=
        calcWidthList_WF cfg ppl hw hc kids
      rw [calcWidth_mk]
      split
      · rw [WFw]
        exact ⟨hsw, le_max_left _ _, le_max_right _ _, hkids⟩
      · rw [WFw]
        exact ⟨hsw, le_rfl, hsw, hkids⟩

/-- List version of `calcWidth_WF`. -/
theorem calcWidthList_WF : ∀ (cfg : Config) (ppl : List String),
    0 ≤ cfg.personWidth → 0 ≤ cfg.personWidth * 2 + cfg.coupleGap →
    ∀ us : List FUnit, ∀ w ∈ calcWidthList cfg ppl us, WFw w
  | cfg, ppl, hw, hc, [] => by
      intro w hw'
      rw [calcWidthList.eq_def] at hw'
      cases hw'
  | cfg, ppl, hw, hc, u :: us => by
      intro w hmem
      rw [calcWidthList.eq_def] at hmem
      rcases List.mem_cons.mp hmem with h | h
      · exact h ▸ calcWidth_WF cfg ppl hw hc u
      · exact calcWidthList_WF cfg ppl hw hc us w h
end

/-! ## Nonnegativity of computed positions -/

mutual
/-- Entries added by `positionUnit` inside a nonnegative band have
nonnegative coordinates (for well-formed widths and the relevant
nonnegative gaps). -/
theorem positionUnit_nonneg : ∀ (cfg : Config) (ppl : List String)
    (u : WUnit) (x y : Rat) (depth : Nat) (pos : List (String × Pos))
    (e : String × Pos),
    0 ≤ cfg.personWidth + cfg.coupleGap → 0 ≤ cfg.siblingGap →
    0 ≤ cfg.generationGap → WFw u → 0 ≤ x → 0 ≤ y →
    e ∈ positionUnit cfg ppl u x y depth pos →
    e ∈ pos ∨ (0 ≤ e.2.x ∧ 0 ≤ e.2.y)
  | cfg, ppl, .mk id partners single sw cw tw kids, x, y, depth, pos,
      e, hpc, hsg, hgg, hwf, hx, hy, he => by
    rw [WFw] at hwf
    obtain ⟨hsw0, hswtw, hcwtw, hkids⟩ := hwf
    have hstart : 0 ≤ x + tw / 2 - sw / 2 := by linarith
    have hstart2 : 0 ≤ x + tw / 2 - sw / 2 + cfg.personWidth +
        cfg.coupleGap := by linarith
    have hcstart : 0 ≤ x + tw / 2 - cw / 2 := by linarith
    have hcy : 0 ≤ y + cfg.generationGap := by linarith
    rw [positionUnit.eq_def] at he
    dsimp only at he
    have h1 :
        ∀ pos1 : List (String × Pos),
          e ∈ (if kids.length > 0 then
            (positionUnitList cfg ppl kids true
              (x + tw / 2 - cw / 2) (y + cfg.generationGap)
              (depth + 1) pos1).1
          else pos1) →
          e ∈ pos1 ∨ (0 ≤ e.2.x ∧ 0 ≤ e.2.y) := by
      intro pos1 h
      split at h
      · exact positionUnitList_nonneg cfg ppl kids true _ _ _ pos1 e
          hpc hsg hgg hkids hcstart hcy h
      · exact Or.inl h
    have h2 := h1 _ he
    clear he
    rcases partners with _ | ps
    · rcases single with _ | s
      · exact h2
      · try dsimp only at h2
        rcases h2 with h2 | h2
        · by_cases hs : s ∈ ppl
          · rw [if_pos hs] at h2
            rcases List.mem_cons.mp h2 with h3 | h3
            · right; rw [h3]; exact ⟨hstart, hy⟩
            · exact Or.inl h3
          · rw [if_neg hs] at h2
            exact Or.inl h2
        · exact Or.inr h2
    · try dsimp only at h2
      rcases hf : ps.filter (fun i => decide (i ∈ ppl)) with _ | ⟨a, bs⟩ <;>
        rw [hf] at h2 <;> try dsimp only at h2
      · exact h2
      · rcases bs with _ | ⟨b, cs⟩ <;> try dsimp only at h2
        · rcases h2 with h2 | h2
          · rcases List.mem_cons.mp h2 with h3 | h3
            · right; rw [h3]; exact ⟨hstart, hy⟩
            · exact Or.inl h3
          · exact Or.inr h2
        · rcases cs with _ | _ <;> try dsimp only at h2
          · rcases h2 with h2 | h2
            · rcases List.mem_cons.mp h2 with h3 | h3
              · right; rw [h3]
                exact ⟨by linarith, hy⟩
              · rcases List.mem_cons.mp h3 with h4 | h4
                · right; rw [h4]; exact ⟨hstart, hy⟩
                · exact Or.inl h4
            · exact Or.inr h2
          · exact h2

/-- List version of `positionUnit_nonneg`. -/
theorem positionUnitList_nonneg : ∀ (cfg : Config) (ppl : List String)
    (ks : List WUnit) (first : Bool) (cx cy : Rat) (depth : Nat)
    (pos : List (String × Pos)) (e : String × Pos),
    0 ≤ cfg.personWidth + cfg.coupleGap → 0 ≤ cfg.siblingGap →
    0 ≤ cfg.generationGap → (∀ k ∈ ks, WFw k) → 0 ≤ cx → 0 ≤ cy →
    e ∈ (positionUnitList cfg ppl ks first cx cy depth pos).1 →
    e ∈ pos ∨ (0 ≤ e.2.x ∧ 0 ≤ e.2.y)
  | cfg, ppl, [], first, cx, cy, depth, pos, e,
      hpc, hsg, hgg, hks, hcx, hcy, he => by
      rw [positionUnitList.eq_def] at he; exact Or.inl he
  | cfg, ppl, k :: ks, first, cx, cy, depth, pos, e,
      hpc, hsg, hgg, hks, hcx, hcy, he => by
      rw [positionUnitList.eq_def] at he
      dsimp only at he
      have hk : WFw k := hks k (List.mem_cons_self _ _)
      have hcx' : 0 ≤ if first = true then cx else cx + cfg.siblingGap := by
        split <;> linarith
      have htw : 0 ≤ k.totalWidth := WFw_totalWidth_nonneg hk
      have hcx'' :
          0 ≤ (if first = true then cx else cx + cfg.siblingGap) +
            k.totalWidth := by linarith
      rcases positionUnitList_nonneg cfg ppl ks false _ _ _ _ e
        hpc hsg hgg (fun j hj => hks j (List.mem_cons_of_mem _ hj))
        hcx'' hcy he with h | h
      · exact positionUnit_nonneg cfg ppl k _ _ _ _ e
          hpc hsg hgg hk hcx' hcy h
      · exact Or.inr h
end

/-- Entries added by the root loop have nonnegative coordinates. -/
theorem positionRootList_nonneg : ∀ (cfg : Config) (ppl : List String)
    (rs : List WUnit) (first : Bool) (x y : Rat)
    (pos : List (String × Pos)) (e : String × Pos),
    0 ≤ cfg.personWidth + cfg.coupleGap → 0 ≤ cfg.siblingGap →
    0 ≤ cfg.generationGap → 0 ≤ cfg.familyGap → (∀ r ∈ rs, WFw r) →
    0 ≤ x → 0 ≤ y →
    e ∈ (positionRootList cfg ppl rs first x y pos).1 →
    e ∈ pos ∨ (0 ≤ e.2.x ∧ 0 ≤ e.2.y)
  | cfg, ppl, [], first, x, y, pos, e,
      hpc, hsg, hgg, hfg, hrs, hx, hy, he => by
      rw [positionRootList.eq_def] at he; exact Or.inl he
  | cfg, ppl, r :: rs, first, x, y, pos, e,
      hpc, hsg, hgg, hfg, hrs, hx, hy, he => by
      rw [positionRootList.eq_def] at he
      dsimp only at he
      have hr : WFw r := hrs r (List.mem_cons_self _ _)
      have hx' : 0 ≤ if first = true then x else x + cfg.familyGap := by
        split <;> linarith
      have htw : 0 ≤ r.totalWidth := WFw_totalWidth_nonneg hr
      have hx'' :
          0 ≤ (if first = true then x else x + cfg.familyGap) +
            r.totalWidth := by linarith
      rcases positionRootList_nonneg cfg ppl rs false _ _ _ e
        hpc hsg hgg hfg (fun j hj => hrs j (List.mem_cons_of_mem _ hj))
        hx'' hy he with h | h
      · exact positionUnit_nonneg cfg ppl r _ _ _ _ e
          hpc hsg hgg hr hx' hy h
      · exact Or.inr h

/-! ## Canvas bounds -/

/-- The max-fold dominates its initial accumulator. -/
theorem foldl_max_init (f : String × Pos → Rat) :
    ∀ (l : List (String × Pos)) (m : Rat),
      m ≤ l.foldl (fun m e => max m (f e)) m
  | [], m => le_rfl
  | e :: l, m => by
      rw [List.foldl_cons]
      exact le_trans (le_max_left _ _) (foldl_max_init f l _)

/-- The max-fold dominates every element's contribution. -/
theorem foldl_max_le (f : String × Pos → Rat) :
    ∀ (l : List (String × Pos)) (m : Rat) (e : String × Pos), e ∈ l →
      f e ≤ l.foldl (fun m e => max m (f e)) m
  | [], m, e, he => absurd he (List.not_mem_nil e)
  | e' :: l, m, e, he => by
      rw [List.foldl_cons]
      rcases List.mem_cons.mp he with h | h
      · exact h ▸ le_trans (le_max_right _ _) (foldl_max_init f l _)
      · exact foldl_max_le f l _ e h

/-- Every position's right edge lies at or left of `canvasMaxX`. -/
theorem mem_le_canvasMaxX (cfg : Config) (pos : List (String × Pos))
    (e : String × Pos) (he : e ∈ pos) :
    e.2.x + cfg.personWidth ≤ canvasMaxX cfg pos :=
  foldl_max_le (fun e => e.2.x + cfg.personWidth) pos 0 e he

/-- Every position's bottom edge lies at or above `canvasMaxY`. -/
theorem mem_le_canvasMaxY (cfg : Config) (pos : List (String × Pos))
    (e : String × Pos) (he : e ∈ pos) :
    e.2.y + cfg.personHeight ≤ canvasMaxY cfg pos :=
  foldl_max_le (fun e => e.2.y + cfg.personHeight) pos 0 e he

/-! ## Claim C7 -/

/-- C7: after a full layout run, every computed position has nonnegative
coordinates and lies within the derived canvas bounds
(`x + personWidth ≤ canvas width`, `y + personHeight ≤ canvas height`). -/
theorem claim_c7_positions_in_canvas (d : Data) :
    (layoutPositions LAYOUT d).Forall
      (fun e =>
        0 ≤ e.2.x ∧ 0 ≤ e.2.y ∧
        e.2.x + LAYOUT.personWidth ≤
          canvasWidth LAYOUT (layoutPositions LAYOUT d) ∧
        e.2.y + LAYOUT.personHeight ≤
          canvasHeight LAYOUT (layoutPositions LAYOUT d)) := by
  rw [List.forall_iff_forall_mem]
  intro e he
  have hWF : ∀ r ∈ calculateWidths LAYOUT (peopleIds d)
      (buildFamilyUnits d), WFw r := by
    intro r hr
    exact calcWidthList_WF LAYOUT (peopleIds d)
      (by norm_num [LAYOUT]) (by norm_num [LAYOUT]) _ r hr
  have he' : e ∈ (positionRootList LAYOUT (peopleIds d)
      (calculateWidths LAYOUT (peopleIds d) (buildFamilyUnits d)) true
      LAYOUT.padding LAYOUT.padding []).1 := by
    rw [layoutPositions, positionUnits] at he
    exact he
  have hnn := positionRootList_nonneg LAYOUT (peopleIds d) _ true
    LAYOUT.padding LAYOUT.padding [] e
    (by norm_num [LAYOUT]) (by norm_num [LAYOUT]) (by norm_num [LAYOUT])
    (by norm_num [LAYOUT]) hWF (by norm_num [LAYOUT]) (by norm_num [LAYOUT])
    he'
  rcases hnn with hnn | hnn
  · cases hnn
  · have hmx := mem_le_canvasMaxX LAYOUT (layoutPositions LAYOUT d) e he
    have hmy := mem_le_canvasMaxY LAYOUT (layoutPositions LAYOUT d) e he
    have hpad : (0 : Rat) ≤ LAYOUT.padding := by norm_num [LAYOUT]
    refine ⟨hnn.1, hnn.2, ?_, ?_⟩
    · rw [canvasWidth]; linarith
    · rw [canvasHeight]; linarith

/-! ## Relationship-index lemmas -/

theorem peopleIds_not_hidden {d : Data} {k : String}
    (h : k ∈ peopleIds d) : k ∉ d.hidden := by
  simp only [peopleIds, visiblePeople, List.mem_map, List.mem_filter,
    decide_eq_true_eq] at h
  obtain ⟨p, ⟨_, hp⟩, rfl⟩ := h
  exact hp

theorem hidden_not_peopleIds {d : Data} {k : String}
    (h : k ∈ d.hidden) : k ∉ peopleIds d :=
  fun hm => peopleIds_not_hidden hm h

/-- The inner `childOf` loop never records a hidden id. -/
theorem childOf_children_fold_none (d : Data) (k : String)
    (hk : k ∈ d.hidden) (fam : Family) :
    ∀ (cs : List String) (m : List (String × Family)),
      aget m k = none →
      aget (cs.foldl
        (fun m childId =>
          if childId ∈ d.hidden then m else aset m childId fam) m) k = none
  | [], m, hm => hm
  | c :: cs, m, hm => by
      rw [List.foldl_cons]
      apply childOf_children_fold_none d k hk fam cs
      by_cases hc : c ∈ d.hidden
      · rw [if_pos hc]; exact hm
      · have hck : c ≠ k := fun h => hc (by rw [h]; exact hk)
        rw [if_neg hc, aset, aget_cons, if_neg hck]
        exact hm

/-- `childOf` never records a hidden id. -/
theorem childOf_hidden_none (d : Data) (k : String) (hk : k ∈ d.hidden) :
    aget (childOf d) k = none := by
  rw [childOf]
  generalize hm : ([] : List (String × Family)) = m
  have hm' : aget m k = none := by rw [← hm]; rfl
  clear hm
  induction d.families generalizing m with
  | nil => exact hm'
  | cons fam fams ih =>
      rw [List.foldl_cons]
      exact ih _ (childOf_children_fold_none d k hk fam fam.children m hm')

/-- The inner `parentIn` loop never records a hidden id. -/
theorem parentIn_partners_fold_none (d : Data) (k : String)
    (hk : k ∈ d.hidden) (fam : Family) :
    ∀ (ps : List String) (m : List (String × List Family)),
      aget m k = none →
      aget (ps.foldl
        (fun m partnerId =>
          if partnerId ∈ d.hidden then m
          else
            match aget m partnerId with
            | none => aset m partnerId [fam]
            | some fams => aset m partnerId (fams ++ [fam])) m) k = none
  | [], m, hm => hm
  | p :: ps, m, hm => by
      rw [List.foldl_cons]
      apply parentIn_partners_fold_none d k hk fam ps
      by_cases hp : p ∈ d.hidden
      · rw [if_pos hp]; exact hm
      · rw [if_neg hp]
        have hpk : p ≠ k := fun h => hp (by rw [h]; exact hk)
        rcases hag : aget m p with _ | fams
        · rw [aset, aget_cons, if_neg hpk]; exact hm
        · dsimp only
          rw [aset, aget_cons, if_neg hpk]; exact hm

/-- `parentIn` never records a hidden id. -/
theorem parentIn_hidden_none (d : Data) (k : String) (hk : k ∈ d.hidden) :
    aget (parentIn d) k = none := by
  rw [parentIn]
  generalize hm : ([] : List (String × List Family)) = m
  have hm' : aget m k = none := by rw [← hm]; rfl
  clear hm
  induction d.families generalizing m with
  | nil => exact hm'
  | cons fam fams ih =>
      rw [List.foldl_cons]
      exact ih _
        (parentIn_partners_fold_none d k hk fam fam.partners m hm')

/-! ## Claim C6 -/

/-- C6: a hidden id receives no position from a full layout run, is never
a key of the `childOf` or `parentIn` index, and (the embedding being
total) the computation completes without error. -/
theorem claim_c6_hidden_excluded (d : Data) (id : String)
    (h : id ∈ d.hidden) :
    (∀ p : Pos, (id, p) ∉ layoutPositions LAYOUT d)
    ∧ aget (childOf d) id = none
    ∧ aget (parentIn d) id = none := by
  refine ⟨?_, childOf_hidden_none d id h, parentIn_hidden_none d id h⟩
  intro p hp
  exact hidden_not_peopleIds h
    (layoutPositions_mem_visible LAYOUT d (id, p) hp)

/-- A concrete dataset with a hidden person for the C6 witness. -/
def dHide : Data :=
  { people := [⟨"A", "Ann", "F"⟩, ⟨"B", "Bob", "M"⟩]
  , families := [⟨["A"], ["B"]⟩]
  , hidden := ["B"] }

/-- Witness for C6 at `dHide` and the hidden id `B`. -/
theorem claim_c6_hidden_excluded_witness :
    ("B" ∈ dHide.hidden)
    ∧ ((∀ p : Pos, ("B", p) ∉ layoutPositions LAYOUT dHide)
      ∧ aget (childOf dHide) "B" = none
      ∧ aget (parentIn dHide) "B" = none) :=
  ⟨by decide, claim_c6_hidden_excluded dHide "B" (by decide)⟩

/-! ## Claim C10 -/

/-- C10: `buildFamilyUnits` ignores its input entirely: every dataset
produces the identical hardcoded unit tree. -/
theorem claim_c10_buildFamilyUnits_constant (d₁ d₂ : Data) :
    buildFamilyUnits d₁ = buildFamilyUnits d₂ := rfl

/-! ## Claim C4 -/

/-- The ids of a unit's own people (partner array entries plus the
single id, when present). -/
def FUnit.ownIds : FUnit → List String
  | .mk _ ps s _ =>
      (match ps with
        | some l => l
        | none => []) ++
      (match s with
        | some x => [x]
        | none => [])

/-- Dataset for the C4 counterexample: Michelle (`M9`) is hidden. -/
def dM9 : Data :=
  { people := [⟨"M1", "Hong", "M"⟩, ⟨"M9", "Michelle", "F"⟩]
  , families := []
  , hidden := ["M9"] }

/-- Counterexample to C4 as stated: the `michelle` unit of the hardcoded
tree consists solely of the hidden person `M9`, yet the width pass still
assigns it `totalWidth = 58` (one `personWidth`) — not a zero footprint —
and the parent `peter-cora` unit's children block accordingly measures
`58 + 8 + 58 = 124`, still counting the hidden unit plus a sibling gap. -/
theorem claim_c4_counterexample :
    (∀ i ∈ (solo "michelle" "M9" []).ownIds, i ∉ peopleIds dM9)
    ∧ (couple "peter-cora" "M7" "M8"
        [solo "hong" "M1" [], solo "michelle" "M9" []]) ∈
        buildFamilyUnits dM9
    ∧ (calcWidth LAYOUT (peopleIds dM9)
        (solo "michelle" "M9" [])).totalWidth = 58
    ∧ (calcWidth LAYOUT (peopleIds dM9)
        (couple "peter-cora" "M7" "M8"
          [solo "hong" "M1" [], solo "michelle" "M9" []])).childrenWidth
        = 124
    ∧ (58 : Rat) ≠ 0 := by
  refine ⟨by decide, ?_, ?_, ?_, by norm_num⟩
  · rw [buildFamilyUnits]
    exact List.mem_cons_of_mem _ (List.mem_cons_self _ _)
  · have h := calcWidth_totalWidth_leaf LAYOUT (peopleIds dM9)
      "michelle" none (some "M9")
    rw [solo, h, selfWidthOf]
    norm_num [LAYOUT, FUnit.partners]
  · rw [couple, calcWidth_childrenWidth_cons, calcWidthList,
      calcWidthList, calcWidthList]
    rw [solo, solo, calcWidth_mk, calcWidth_mk]
    norm_num [childrenWidthLoop, selfWidthOf, WUnit.totalWidth, LAYOUT,
      FUnit.partners, List.enum, List.enumFrom]

/-- C4 amended: a unit all of whose own people are hidden contributes no
positions (its people receive none), but it is **not** removed from the
horizontal footprint: its `selfWidth` is still `personWidth` and its
`totalWidth` (at least `personWidth`) still occupies space in the parent's
children block. -/
theorem claim_c4_hidden_unit (cfg : Config) (ppl : List String)
    (u : FUnit) (h : ∀ i ∈ u.ownIds, i ∉ ppl) :
    (calcWidth cfg ppl u).selfWidth = cfg.personWidth
    ∧ (cfg.personWidth ≤ (calcWidth cfg ppl u).totalWidth)
    ∧ ∀ (x y : Rat) (depth : Nat) (pos : List (String × Pos))
        (i : String) (p : Pos), i ∈ u.ownIds →
        (i, p) ∈ positionUnit cfg ppl (calcWidth cfg ppl u) x y depth pos →
        (i, p) ∈ pos := by
  obtain ⟨id, ps, s, kids⟩ := u
  have hsw : selfWidthOf cfg ppl (.mk id ps s kids) = cfg.personWidth := by
    rw [selfWidthOf]
    rcases ps with _ | l
    · rfl
    · have hfil : l.filter (fun i => decide (i ∈ ppl)) = [] := by
        rw [List.filter_eq_nil_iff]
        intro a ha
        simp only [decide_eq_true_eq]
        exact fun hmem => h a (List.mem_append_left _ ha) hmem
      simp [FUnit.partners, hfil]
  refine ⟨?_, ?_, ?_⟩
  · rw [calcWidth_selfWidth, hsw]
  · rcases kids with _ | ⟨k, ks⟩
    · rw [calcWidth_totalWidth_leaf, hsw]
    · rw [calcWidth_totalWidth_cons, hsw]
      exact le_max_left _ _
  · intro x y depth pos i p hi hmem
    rcases positionUnit_mem_visible cfg ppl _ x y depth pos (i, p) hmem
      with hm | hm
    · exact hm
    · exact absurd hm (h i hi)

/-- Witness for the amended C4 at the hidden `michelle` unit. -/
theorem claim_c4_hidden_unit_witness :
    (∀ i ∈ (solo "michelle" "M9" []).ownIds, i ∉ ["M1"])
    ∧ (calcWidth LAYOUT ["M1"] (solo "michelle" "M9" [])).selfWidth =
        LAYOUT.personWidth
    ∧ ("M9", (⟨1, 2, "z"⟩ : Pos)) ∈ [("M9", (⟨1, 2, "z"⟩ : Pos))] :=
  ⟨by decide,
    (claim_c4_hidden_unit LAYOUT ["M1"] (solo "michelle" "M9" [])
      (by decide)).1,
    (claim_c4_hidden_unit LAYOUT ["M1"] (solo "michelle" "M9" [])
      (by decide)).2.2 0 0 0 [("M9", ⟨1, 2, "z"⟩)] "M9" ⟨1, 2, "z"⟩
      (by decide)
      (positionUnit_mono LAYOUT ["M1"] _ 0 0 0 _ _
        (List.mem_cons_self _ _))⟩

/-! ## Placement of a unit's own people -/

/-- A single (visible) person is placed at `unitStartX = centerX -
selfWidth/2`. -/
theorem positionUnit_places_single (cfg : Config) (ppl : List String)
    (w : WUnit) (x y : Rat) (depth : Nat) (pos : List (String × Pos))
    (s : String) (hps : w.partners = none) (hs : w.single = some s)
    (hvis : s ∈ ppl) :
    (s, ⟨x + w.totalWidth / 2 - w.selfWidth / 2, y, w.id⟩) ∈
      positionUnit cfg ppl w x y depth pos := by
  obtain ⟨id, partners, single, sw, cw, tw, kids⟩ := w
  dsimp only [WUnit.partners, WUnit.single, WUnit.totalWidth,
    WUnit.selfWidth, WUnit.id] at hps hs ⊢
  subst hps
  subst hs
  rw [positionUnit.eq_def]
  dsimp only
  rw [if_pos hvis]
  split
  · exact positionUnitList_mono cfg ppl kids true _ _ _ _ _
      (List.mem_cons_self _ _)
  · exact List.mem_cons_self _ _

/-- A couple with exactly one visible partner places that partner at
`unitStartX`. -/
theorem positionUnit_places_one_partner (cfg : Config)
    (ppl : List String) (w : WUnit) (x y : Rat) (depth : Nat)
    (pos : List (String × Pos)) (psIds : List String) (a : String)
    (hps : w.partners = some psIds)
    (hf : psIds.filter (fun i => decide (i ∈ ppl)) = [a]) :
    (a, ⟨x + w.totalWidth / 2 - w.selfWidth / 2, y, w.id⟩) ∈
      positionUnit cfg ppl w x y depth pos := by
  obtain ⟨id, partners, single, sw, cw, tw, kids⟩ := w
  dsimp only [WUnit.partners, WUnit.totalWidth, WUnit.selfWidth,
    WUnit.id] at hps ⊢
  subst hps
  rw [positionUnit.eq_def]
  dsimp only
  rw [hf]
  split
  · exact positionUnitList_mono cfg ppl kids true _ _ _ _ _
      (List.mem_cons_self _ _)
  · exact List.mem_cons_self _ _

/-- A couple with two visible partners places them at `unitStartX` and
`unitStartX + personWidth + coupleGap`. -/
theorem positionUnit_places_couple (cfg : Config) (ppl : List String)
    (w : WUnit) (x y : Rat) (depth : Nat) (pos : List (String × Pos))
    (psIds : List String) (a b : String)
    (hps : w.partners = some psIds)
    (hf : psIds.filter (fun i => decide (i ∈ ppl)) = [a, b]) :
    (a, ⟨x + w.totalWidth / 2 - w.selfWidth / 2, y, w.id⟩) ∈
      positionUnit cfg ppl w x y depth pos
    ∧ (b, ⟨x + w.totalWidth / 2 - w.selfWidth / 2 + cfg.personWidth +
        cfg.coupleGap, y, w.id⟩) ∈
      positionUnit cfg ppl w x y depth pos := by
  obtain ⟨id, partners, single, sw, cw, tw, kids⟩ := w
  dsimp only [WUnit.partners, WUnit.totalWidth, WUnit.selfWidth,
    WUnit.id] at hps ⊢
  subst hps
  rw [positionUnit.eq_def]
  dsimp only
  rw [hf]
  constructor
  · split
    · exact positionUnitList_mono cfg ppl kids true _ _ _ _ _
        (List.mem_cons_of_mem _ (List.mem_cons_self _ _))
    · exact List.mem_cons_of_mem _ (List.mem_cons_self _ _)
  · split
    · exact positionUnitList_mono cfg ppl kids true _ _ _ _ _
        (List.mem_cons_self _ _)
    · exact List.mem_cons_self _ _

/-! ## Claim C9 -/

/-- C9: a couple unit exactly one of whose partners is visible degrades
to a single-person unit: `selfWidth = personWidth` and the sole visible
partner is placed at the centered `unitStartX`. -/
theorem claim_c9_half_visible_couple (cfg : Config) (ppl : List String)
    (id : String) (psIds : List String) (sing : Option String)
    (kids : List FUnit) (x y : Rat) (depth : Nat)
    (pos : List (String × Pos)) (a : String)
    (hf : psIds.filter (fun i => decide (i ∈ ppl)) = [a]) :
    (calcWidth cfg ppl (.mk id (some psIds) sing kids)).selfWidth =
      cfg.personWidth
    ∧ (a, ⟨x + (calcWidth cfg ppl
          (.mk id (some psIds) sing kids)).totalWidth / 2 -
          (calcWidth cfg ppl (.mk id (some psIds) sing kids)).selfWidth / 2,
        y, id⟩) ∈
      positionUnit cfg ppl (calcWidth cfg ppl (.mk id (some psIds) sing kids))
        x y depth pos := by
  have hsw : (calcWidth cfg ppl (.mk id (some psIds) sing kids)).selfWidth =
      cfg.personWidth := by
    rw [calcWidth_selfWidth, selfWidthOf]
    simp only [FUnit.partners, hf]
    norm_num
  refine ⟨hsw, ?_⟩
  have hps : (calcWidth cfg ppl
      (.mk id (some psIds) sing kids)).partners = some psIds := by
    rw [calcWidth_partners]; rfl
  have hid : (calcWidth cfg ppl (.mk id (some psIds) sing kids)).id = id := by
    rw [calcWidth_id]; rfl
  have := positionUnit_places_one_partner cfg ppl
    (calcWidth cfg ppl (.mk id (some psIds) sing kids)) x y depth pos
    psIds a hps hf
  rw [hid] at this
  exact this

/-- Witness for C9 at the `ernest-amy` couple with only `F6` visible. -/
theorem claim_c9_half_visible_couple_witness :
    (["F5", "F6"].filter (fun i => decide (i ∈ ["F6", "M1"])) = ["F6"])
    ∧ (calcWidth LAYOUT ["F6", "M1"]
        (.mk "ernest-amy" (some ["F5", "F6"]) none [])).selfWidth =
      LAYOUT.personWidth :=
  ⟨by decide,
    (claim_c9_half_visible_couple LAYOUT ["F6", "M1"] "ernest-amy"
      ["F5", "F6"] none [] 0 0 0 [] "F6" (by decide)).1⟩

/-! ## Claim C1 -/

/-- C1: for a unit with at least one child unit, the children block that
the position pass lays out spans exactly
`[centerX - childrenWidth/2, centerX + childrenWidth/2]` — its horizontal
midpoint is `centerX = x + totalWidth/2`, the center of the unit's band —
and the unit's own single/partners are placed centered at
`unitStartX = centerX - selfWidth/2` (and `unitStartX + personWidth +
coupleGap` for the second partner), not left-aligned. -/
theorem claim_c1_centering (cfg : Config) (ppl : List String)
    (id : String) (partners : Option (List String)) (sing : Option String)
    (k : FUnit) (ks : List FUnit) (x y : Rat) (depth : Nat)
    (pos pos' : List (String × Pos)) :
    ((positionUnitList cfg ppl
        (calcWidth cfg ppl (.mk id partners sing (k :: ks))).childUnits
        true
        (x + (calcWidth cfg ppl (.mk id partners sing (k :: ks))).totalWidth / 2 -
          (calcWidth cfg ppl (.mk id partners sing (k :: ks))).childrenWidth / 2)
        (y + cfg.generationGap) (depth + 1) pos').2 =
      x + (calcWidth cfg ppl (.mk id partners sing (k :: ks))).totalWidth / 2 +
        (calcWidth cfg ppl (.mk id partners sing (k :: ks))).childrenWidth / 2)
    ∧ (((x + (calcWidth cfg ppl (.mk id partners sing (k :: ks))).totalWidth / 2 -
          (calcWidth cfg ppl (.mk id partners sing (k :: ks))).childrenWidth / 2) +
        (x + (calcWidth cfg ppl (.mk id partners sing (k :: ks))).totalWidth / 2 +
          (calcWidth cfg ppl (.mk id partners sing (k :: ks))).childrenWidth / 2)) / 2 =
        x + (calcWidth cfg ppl (.mk id partners sing (k :: ks))).totalWidth / 2)
    ∧ (∀ s, partners = none → sing = some s → s ∈ ppl →
        (s, ⟨x + (calcWidth cfg ppl (.mk id partners sing (k :: ks))).totalWidth / 2 -
            (calcWidth cfg ppl (.mk id partners sing (k :: ks))).selfWidth / 2,
          y, id⟩) ∈
          positionUnit cfg ppl
            (calcWidth cfg ppl (.mk id partners sing (k :: ks))) x y depth pos)
    ∧ (∀ psIds a b, partners = some psIds →
        psIds.filter (fun i => decide (i ∈ ppl)) = [a, b] →
        (a, ⟨x + (calcWidth cfg ppl (.mk id partners sing (k :: ks))).totalWidth / 2 -
            (calcWidth cfg ppl (.mk id partners sing (k :: ks))).selfWidth / 2,
          y, id⟩) ∈
          positionUnit cfg ppl
            (calcWidth cfg ppl (.mk id partners sing (k :: ks))) x y depth pos
        ∧ (b, ⟨x + (calcWidth cfg ppl (.mk id partners sing (k :: ks))).totalWidth / 2 -
            (calcWidth cfg ppl (.mk id partners sing (k :: ks))).selfWidth / 2 +
            cfg.personWidth + cfg.coupleGap, y, id⟩) ∈
          positionUnit cfg ppl
            (calcWidth cfg ppl (.mk id partners sing (k :: ks))) x y depth pos) := by
  have hid : (calcWidth cfg ppl (.mk id partners sing (k :: ks))).id = id := by
    rw [calcWidth_id]; rfl
  refine ⟨?_, by ring, ?_, ?_⟩
  · rw [calcWidth_childUnits, calcWidth_childrenWidth_cons]
    dsimp only [FUnit.childUnits]
    rw [calcWidthList]
    rw [positionUnitList_cursor_first]
    ring
  · intro s hpart hsing hvis
    subst hpart
    subst hsing
    have hps : (calcWidth cfg ppl
        (.mk id none (some s) (k :: ks))).partners = none := by
      rw [calcWidth_partners]; rfl
    have hs : (calcWidth cfg ppl
        (.mk id none (some s) (k :: ks))).single = some s := by
      rw [calcWidth_single]; rfl
    have := positionUnit_places_single cfg ppl
      (calcWidth cfg ppl (.mk id none (some s) (k :: ks))) x y depth pos
      s hps hs hvis
    rw [hid] at this
    exact this
  · intro psIds a b hpart hf
    subst hpart
    have hps : (calcWidth cfg ppl
        (.mk id (some psIds) sing (k :: ks))).partners = some psIds := by
      rw [calcWidth_partners]; rfl
    have := positionUnit_places_couple cfg ppl
      (calcWidth cfg ppl (.mk id (some psIds) sing (k :: ks))) x y depth
      pos psIds a b hps hf
    rw [hid] at this
    exact this

/-- Witness for C1 at the `peter-cora` couple over its two children. -/
theorem claim_c1_centering_witness :
    (["M7", "M8"].filter
        (fun i => decide (i ∈ ["M7", "M8", "M1", "M9"])) = ["M7", "M8"])
    ∧ ("M7", (⟨0 + (calcWidth LAYOUT ["M7", "M8", "M1", "M9"]
          (.mk "peter-cora" (some ["M7", "M8"]) none
            [solo "hong" "M1" [], solo "michelle" "M9" []])).totalWidth / 2 -
          (calcWidth LAYOUT ["M7", "M8", "M1", "M9"]
            (.mk "peter-cora" (some ["M7", "M8"]) none
              [solo "hong" "M1" [], solo "michelle" "M9" []])).selfWidth / 2,
        0, "peter-cora"⟩ : Pos)) ∈
      positionUnit LAYOUT ["M7", "M8", "M1", "M9"]
        (calcWidth LAYOUT ["M7", "M8", "M1", "M9"]
          (.mk "peter-cora" (some ["M7", "M8"]) none
            [solo "hong" "M1" [], solo "michelle" "M9" []])) 0 0 0 [] :=
  ⟨by decide,
    ((claim_c1_centering LAYOUT ["M7", "M8", "M1", "M9"] "peter-cora"
      (some ["M7", "M8"]) none (solo "hong" "M1" [])
      [solo "michelle" "M9" []] 0 0 0 [] []).2.2.2
      ["M7", "M8"] "M7" "M8" rfl (by decide)).1⟩

/-! ## Claim C5 -/

/-- What C5 asserts of each emitted connection: nonempty filtered sides,
provenance from a declared tuple, and every referenced position present
in the position map. -/
def connectionOk (pos : List (String × Pos)) : Connection → Prop
  | .parentChild style ps cs =>
      ps ≠ [] ∧ cs ≠ [] ∧
      (∃ spec ∈ familyConnections, style = spec.ctype ∧
        ps = (spec.parents.filter (fun i => ahas pos i)).filterMap
          (fun i => aget pos i) ∧
        cs = (spec.children.filter (fun i => ahas pos i)).filterMap
          (fun i => (aget pos i).map (fun p => (i, p)))) ∧
      (∀ p ∈ ps, ∃ i, aget pos i = some p) ∧
      (∀ ic ∈ cs, aget pos ic.1 = some ic.2)
  | .nephew src dst => aget pos "X1" = some src ∧ aget pos "F7" = some dst

theorem buildConnections_fold_ok (pos : List (String × Pos)) :
    ∀ (specs : List ConnSpec) (acc : List Connection),
      (∀ sp ∈ specs, sp ∈ familyConnections) →
      (∀ c ∈ acc, connectionOk pos c) →
      ∀ c ∈ specs.foldl
        (fun acc conn =>
          let parentPositions :=
            (conn.parents.filter (fun i => ahas pos i)).filterMap
              (fun i => aget pos i)
          let childPositions :=
            (conn.children.filter (fun i => ahas pos i)).filterMap
              (fun i => (aget pos i).map (fun p => (i, p)))
          if parentPositions.length > 0 ∧ childPositions.length > 0 then
            acc ++ [.parentChild conn.ctype parentPositions childPositions]
          else acc) acc,
      connectionOk pos c
  | [], acc, hspecs, hacc, c, hc => hacc c hc
  | sp :: sps, acc, hspecs, hacc, c, hc => by
      rw [List.foldl_cons] at hc
      refine buildConnections_fold_ok pos sps _
        (fun q hq => hspecs q (List.mem_cons_of_mem _ hq)) ?_ c hc
      intro c' hc'
      dsimp only at hc'
      split at hc'
      · rcases List.mem_append.mp hc' with h | h
        · exact hacc c' h
        · rcases List.mem_cons.mp h with h | h
          · subst h
            rename_i hguard
            rw [connectionOk]
            refine ⟨?_, ?_, ⟨sp, hspecs sp (List.mem_cons_self _ _),
              rfl, rfl, rfl⟩, ?_, ?_⟩
            · exact List.ne_nil_of_length_pos hguard.1
            · exact List.ne_nil_of_length_pos hguard.2
            · intro p hp
              obtain ⟨i, _, hi⟩ := List.mem_filterMap.mp hp
              exact ⟨i, hi⟩
            · intro ic hic
              obtain ⟨i, _, hi⟩ := List.mem_filterMap.mp hic
              obtain ⟨p, hp, hip⟩ := Option.map_eq_some'.mp hi
              cases hip
              exact hp
          · cases h
      · exact hacc c' hc'

/-- C5: every connection record the builder emits comes from one of the
declared tuples with both sides filtered against the position map and
nonempty, and references only positions that exist; the nephew link is
emitted only when both its endpoints are placed. -/
theorem claim_c5_connections (pos : List (String × Pos)) (c : Connection)
    (hc : c ∈ buildConnections pos) : connectionOk pos c := by
  rw [buildConnections] at hc
  dsimp only at hc
  have hfold := buildConnections_fold_ok pos familyConnections []
    (fun q hq => hq) (fun c' hc' => absurd hc' (List.not_mem_nil c'))
  rcases h1 : aget pos "X1" with _ | p1 <;>
    rcases h7 : aget pos "F7" with _ | p7 <;>
    rw [h1, h7] at hc
  · exact hfold c hc
  · exact hfold c hc
  · exact hfold c hc
  · rcases List.mem_append.mp hc with h | h
    · exact hfold c h
    · rcases List.mem_cons.mp h with h | h
      · subst h
        rw [connectionOk]
        exact ⟨h1, h7⟩
      · cases h

/-- A small position map for the C5 witness. -/
def tinyPos : List (String × Pos) :=
  [("X1", ⟨0, 0, "u"⟩), ("F7", ⟨1, 2, "u"⟩)]

/-- Witness for C5 at the nephew connection of a two-entry position map. -/
theorem claim_c5_connections_witness :
    (Connection.nephew ⟨0, 0, "u"⟩ ⟨1, 2, "u"⟩ ∈ buildConnections tinyPos)
    ∧ connectionOk tinyPos (Connection.nephew ⟨0, 0, "u"⟩ ⟨1, 2, "u"⟩) :=
  ⟨by decide, claim_c5_connections tinyPos _ (by decide)⟩

/-! ## Claim C3 -/

/-- Position map for the C3 counterexample: the couple `M7`,`M8` as the
position pass places a visible couple (second partner at
`x + personWidth + coupleGap = x + 52`), with child `M1` below. -/
def cexPos : List (String × Pos) :=
  [("M7", ⟨0, 0, "peter-cora"⟩), ("M8", ⟨52, 0, "peter-cora"⟩),
   ("M1", ⟨26, 90, "hong"⟩)]

/-- Counterexample to C3 as stated: the builder emits a two-parent
connection for `M7`,`M8` → `M1`, but `drawParentChildConnection` anchors
the drop line at `(p0.x + p1.x + personWidth)/2 + coupleGap/2`, which is
NOT the midpoint of the two partner centers: with `coupleGap = -6` the
anchor sits `3` units left of that midpoint (`52 ≠ 55`). -/
theorem claim_c3_counterexample :
    (Connection.parentChild "normal"
        [⟨0, 0, "peter-cora"⟩, ⟨52, 0, "peter-cora"⟩]
        [("M1", ⟨26, 90, "hong"⟩)] ∈ buildConnections cexPos)
    ∧ parentCenterX LAYOUT [⟨0, 0, "peter-cora"⟩, ⟨52, 0, "peter-cora"⟩] ≠
        ((0 + LAYOUT.personWidth / 2) + (52 + LAYOUT.personWidth / 2)) / 2 := by
  constructor
  · decide
  · rw [parentCenterX]
    norm_num [LAYOUT]

/-- C3 amended: for a two-parent connection the anchor abscissa is the
midpoint of the two partner centers **shifted by `coupleGap / 2`**; for a
single parent it is exactly that parent's center. -/
theorem claim_c3_anchor (cfg : Config) (p0 p1 : Pos) :
    parentCenterX cfg [p0, p1] =
      ((p0.x + cfg.personWidth / 2) + (p1.x + cfg.personWidth / 2)) / 2 +
        cfg.coupleGap / 2
    ∧ parentCenterX cfg [p0] = p0.x + cfg.personWidth / 2 := by
  constructor
  · rw [parentCenterX]
    ring
  · rw [parentCenterX]
    exact fun q hq => by simp at hq

/-! ## Claim C8 : supporting lemmas -/

/-- `c` is a child the BFS can reach from `p`: some family `p` is a
partner in lists `c` among its children. -/
def childVia (d : Data) (p c : String) : Prop :=
  ∃ fam ∈ (aget (parentIn d) p).getD [], c ∈ fam.children

theorem bfsChildren_childVia {d : Data} {visited : List String}
    {id : String} {gen : Nat} {e : String × Nat}
    (h : e ∈ bfsChildren d visited id gen) :
    childVia d id e.1 ∧ e.2 = gen + 1 := by
  simp only [bfsChildren, List.mem_flatMap, List.mem_map,
    List.mem_filter] at h
  obtain ⟨fam, hfam, c, ⟨hc, _⟩, rfl⟩ := h
  exact ⟨⟨fam, hfam, hc⟩, rfl⟩

/-- Values stored by the inner `parentIn` loop only collect families of
the dataset. -/
theorem parentIn_inner_families (d : Data) (fam : Family)
    (hfam : fam ∈ d.families) :
    ∀ (ps : List String) (m : List (String × List Family)),
      (∀ k fs, aget m k = some fs → ∀ f ∈ fs, f ∈ d.families) →
      ∀ k fs,
        aget (ps.foldl
          (fun m partnerId =>
            if partnerId ∈ d.hidden then m
            else
              match aget m partnerId with
              | none => aset m partnerId [fam]
              | some fams => aset m partnerId (fams ++ [fam])) m) k =
          some fs → ∀ f ∈ fs, f ∈ d.families
  | [], m, hm, k, fs => hm k fs
  | p :: ps, m, hm, k, fs => by
      rw [List.foldl_cons]
      apply parentIn_inner_families d fam hfam ps
      intro k' fs' hk' f hf
      by_cases hp : p ∈ d.hidden
      · rw [if_pos hp] at hk'
        exact hm k' fs' hk' f hf
      · rw [if_neg hp] at hk'
        rcases hag : aget m p with _ | fams
        · rw [hag] at hk'
          dsimp only at hk'
          rw [aset, aget_cons] at hk'
          by_cases hpk : p = k'
          · rw [if_pos hpk] at hk'
            cases hk'
            rcases List.mem_singleton.mp hf with rfl
            exact hfam
          · rw [if_neg hpk] at hk'
            exact hm k' fs' hk' f hf
        · rw [hag] at hk'
          dsimp only at hk'
          rw [aset, aget_cons] at hk'
          by_cases hpk : p = k'
          · rw [if_pos hpk] at hk'
            cases hk'
            rcases List.mem_append.mp hf with h | h
            · exact hm p fams hag f h
            · rcases List.mem_singleton.mp h with rfl
              exact hfam
          · rw [if_neg hpk] at hk'
            exact hm k' fs' hk' f hf

/-- `parentIn` values only collect families of the dataset. -/
theorem parentIn_families (d : Data) :
    ∀ k fs, aget (parentIn d) k = some fs → ∀ f ∈ fs, f ∈ d.families := by
  rw [parentIn]
  have main :
      ∀ (l : List Family) (m : List (String × List Family)),
        (∀ f ∈ l, f ∈ d.families) →
        (∀ k fs, aget m k = some fs → ∀ f ∈ fs, f ∈ d.families) →
        ∀ k fs,
          aget (l.foldl
            (fun m fam =>
              fam.partners.foldl
                (fun m partnerId =>
                  if partnerId ∈ d.hidden then m
                  else
                    match aget m partnerId with
                    | none => aset m partnerId [fam]
                    | some fams => aset m partnerId (fams ++ [fam])) m) m)
            k = some fs → ∀ f ∈ fs, f ∈ d.families := by
    intro l
    induction l with
    | nil => intro m _ hm; exact hm
    | cons fam fams ih =>
        intro m hl hm
        rw [List.foldl_cons]
        exact ih _ (fun f hf => hl f (List.mem_cons_of_mem _ hf))
          (parentIn_inner_families d fam (hl fam (List.mem_cons_self _ _))
            fam.partners m hm)
  exact main d.families [] (fun f hf => hf) (fun k fs h => by cases h)

/-- `childVia d p c` always goes through a family of the dataset. -/
theorem childVia_family {d : Data} {p c : String}
    (h : childVia d p c) : ∃ fam ∈ d.families, c ∈ fam.children := by
  obtain ⟨fam, hfam, hc⟩ := h
  rcases hag : aget (parentIn d) p with _ | fs
  · rw [hag] at hfam
    cases hfam
  · rw [hag] at hfam
    exact ⟨fam, parentIn_families d p fs hag fam hfam, hc⟩

/-- Key presence in an association list survives further `aset`s of the
inner `childOf` loop. -/
theorem childOf_inner_mono (d : Data) (fam : Family) (c : String) :
    ∀ (cs : List String) (m : List (String × Family)),
      ahas m c = true →
      ahas (cs.foldl
        (fun m childId =>
          if childId ∈ d.hidden then m else aset m childId fam) m) c = true
  | [], m, hm => hm
  | x :: cs, m, hm => by
      rw [List.foldl_cons]
      apply childOf_inner_mono d fam c cs
      by_cases hx : x ∈ d.hidden
      · rw [if_pos hx]; exact hm
      · rw [if_neg hx, ahas, aset, aget_cons]
        by_cases hxc : x = c
        · rw [if_pos hxc]; rfl
        · rw [if_neg hxc]; exact hm

/-- The inner `childOf` loop records every non-hidden child it sees. -/
theorem childOf_inner_sets (d : Data) (fam : Family) (c : String)
    (hc : c ∉ d.hidden) :
    ∀ (cs : List String) (m : List (String × Family)), c ∈ cs →
      ahas (cs.foldl
        (fun m childId =>
          if childId ∈ d.hidden then m else aset m childId fam) m) c = true
  | [], m, hmem => absurd hmem (List.not_mem_nil c)
  | x :: cs, m, hmem => by
      rw [List.foldl_cons]
      rcases List.mem_cons.mp hmem with rfl | hmem'
      · apply childOf_inner_mono d fam c cs
        rw [if_neg hc, ahas, aset, aget_cons, if_pos rfl]
        rfl
      · exact childOf_inner_sets d fam c hc cs _ hmem'

/-- Key presence survives the outer `childOf` loop. -/
theorem childOf_outer_mono (d : Data) (c : String) :
    ∀ (l : List Family) (m : List (String × Family)),
      ahas m c = true →
      ahas (l.foldl
        (fun m fam =>
          fam.children.foldl
            (fun m childId =>
              if childId ∈ d.hidden then m else aset m childId fam) m) m)
        c = true
  | [], m, hm => hm
  | fam :: fams, m, hm => by
      rw [List.foldl_cons]
      exact childOf_outer_mono d c fams _
        (childOf_inner_mono d fam c fam.children m hm)

/-- Any non-hidden child of any family of the dataset has a `childOf`
entry. -/
theorem childOf_has_of_child (d : Data) (fam : Family) (c : String)
    (hfam : fam ∈ d.families) (hc : c ∈ fam.children)
    (hh : c ∉ d.hidden) : ahas (childOf d) c = true := by
  rw [childOf]
  have main :
      ∀ (l : List Family) (m : List (String × Family)), fam ∈ l →
        ahas (l.foldl
          (fun m fam =>
            fam.children.foldl
              (fun m childId =>
                if childId ∈ d.hidden then m else aset m childId fam) m)
          m) c = true := by
    intro l
    induction l with
    | nil => intro m hmem; exact absurd hmem (List.not_mem_nil fam)
    | cons g gs ih =>
        intro m hmem
        rw [List.foldl_cons]
        rcases List.mem_cons.mp hmem with rfl | hmem'
        · exact childOf_outer_mono d c gs _
            (childOf_inner_sets d fam c hh fam.children m hc)
        · exact ih _ hmem'
  exact main d.families [] hfam

/-- Characterisation of the `rootIds` filter. -/
theorem mem_rootIds {d : Data} {k : String} :
    k ∈ rootIds d ↔ k ∈ peopleIds d ∧ ahas (childOf d) k = false := by
  rw [rootIds, List.mem_filter]
  constructor
  · rintro ⟨h1, h2⟩
    exact ⟨h1, by rwa [Bool.not_eq_true'] at h2⟩
  · rintro ⟨h1, h2⟩
    exact ⟨h1, by rwa [Bool.not_eq_true']⟩

theorem bfs_nil (d : Data) (visited : List String)
    (gens : List (String × Nat)) : bfs d [] visited gens = gens := by
  rw [bfs]

theorem bfs_skip (d : Data) (id : String) (gen : Nat)
    (rest : List (String × Nat)) (visited : List String)
    (gens : List (String × Nat)) (h : id ∈ visited) :
    bfs d ((id, gen) :: rest) visited gens = bfs d rest visited gens := by
  rw [bfs, dif_pos h]

theorem bfs_visit (d : Data) (id : String) (gen : Nat)
    (rest : List (String × Nat)) (visited : List String)
    (gens : List (String × Nat)) (h : id ∉ visited) :
    bfs d ((id, gen) :: rest) visited gens =
      bfs d (rest ++ bfsChildren d (id :: visited) id gen)
        (id :: visited) (aset gens id gen) := by
  rw [bfs, dif_neg h]

/-- Main BFS invariant: assignments are write-once (monotone), every
queued id ends up assigned, assigned keys are visible people, and every
generation `n + 1` was derived from some parent assigned generation `n`
via one of that parent's families. -/
theorem bfs_spec (d : Data) :
    ∀ (queue : List (String × Nat)) (visited : List String)
      (gens : List (String × Nat)),
      (∀ k, k ∈ visited ↔ ahas gens k = true) →
      (∀ e ∈ queue, e.1 ∈ peopleIds d) →
      (∀ e ∈ queue, ∀ n, e.2 = n + 1 →
        ∃ p, aget gens p = some n ∧ childVia d p e.1) →
      (∀ k, ahas gens k = true → k ∈ peopleIds d) →
      (∀ k n, aget gens k = some (n + 1) →
        ∃ p, aget gens p = some n ∧ childVia d p k) →
      (∀ k v, aget gens k = some v →
          aget (bfs d queue visited gens) k = some v)
      ∧ (∀ e ∈ queue, ahas (bfs d queue visited gens) e.1 = true)
      ∧ (∀ k, ahas (bfs d queue visited gens) k = true → k ∈ peopleIds d)
      ∧ (∀ k n, aget (bfs d queue visited gens) k = some (n + 1) →
          ∃ p, aget (bfs d queue visited gens) p = some n ∧
            childVia d p k) := by
  intro queue visited gens
  induction queue, visited, gens using bfs.induct d with
  | case1 visited gens =>
      intro hsync hq0 hq1 hg0 hg1
      rw [bfs_nil]
      exact ⟨fun k v hk => hk,
        fun e he => absurd he (List.not_mem_nil e), hg0, hg1⟩
  | case2 visited gens id gen rest hid ih =>
      intro hsync hq0 hq1 hg0 hg1
      rw [bfs_skip d id gen rest visited gens hid]
      obtain ⟨ihA, ihB, ihC, ihD⟩ := ih hsync
        (fun e he => hq0 e (List.mem_cons_of_mem _ he))
        (fun e he => hq1 e (List.mem_cons_of_mem _ he)) hg0 hg1
      refine ⟨ihA, ?_, ihC, ihD⟩
      intro e he
      rcases List.mem_cons.mp he with rfl | h
      · have hh := (hsync id).mp hid
        rw [ahas] at hh
        rcases hag : aget gens id with _ | v
        · rw [hag] at hh; cases hh
        · have h2 := ihA id v hag
          rw [ahas, h2]; rfl
      · exact ihB e h
  | case3 visited gens id gen rest hid ih =>
      intro hsync hq0 hq1 hg0 hg1
      rw [bfs_visit d id gen rest visited gens hid]
      have hidnone : aget gens id = none := by
        rcases hag : aget gens id with _ | v
        · rfl
        · exact absurd ((hsync id).mpr (by rw [ahas, hag]; rfl)) hid
      have hlift : ∀ k v, aget gens k = some v →
          aget (aset gens id gen) k = some v := by
        intro k v hk
        rw [aset, aget_cons]
        by_cases hik : id = k
        · subst hik; rw [hidnone] at hk; cases hk
        · rw [if_neg hik]; exact hk
      have hsetid : aget (aset gens id gen) id = some gen := by
        rw [aset, aget_cons, if_pos rfl]
      have hsync' : ∀ k, k ∈ id :: visited ↔
          ahas (aset gens id gen) k = true := by
        intro k
        rw [List.mem_cons, ahas, aset, aget_cons]
        by_cases hik : id = k
        · subst hik
          simp
        · rw [if_neg hik]
          constructor
          · rintro (rfl | hk)
            · exact absurd rfl hik
            · exact (hsync k).mp hk
          · intro hk
            exact Or.inr ((hsync k).mpr hk)
      have hq0' : ∀ e ∈ rest ++ bfsChildren d (id :: visited) id gen,
          e.1 ∈ peopleIds d := by
        intro e he
        rcases List.mem_append.mp he with h | h
        · exact hq0 e (List.mem_cons_of_mem _ h)
        · exact bfsChildren_mem_peopleIds h
      have hq1' : ∀ e ∈ rest ++ bfsChildren d (id :: visited) id gen,
          ∀ n, e.2 = n + 1 →
          ∃ p, aget (aset gens id gen) p = some n ∧ childVia d p e.1 := by
        intro e he n hn
        rcases List.mem_append.mp he with h | h
        · obtain ⟨p, hp, hcv⟩ := hq1 e (List.mem_cons_of_mem _ h) n hn
          exact ⟨p, hlift p n hp, hcv⟩
        · obtain ⟨hcv, hgen⟩ := bfsChildren_childVia h
          rw [hgen] at hn
          have hng : n = gen := by omega
          subst hng
          exact ⟨id, hsetid, hcv⟩
      have hg0' : ∀ k, ahas (aset gens id gen) k = true →
          k ∈ peopleIds d := by
        intro k hk
        rw [ahas, aset, aget_cons] at hk
        by_cases hik : id = k
        · subst hik
          exact hq0 (id, gen) (List.mem_cons_self _ _)
        · rw [if_neg hik] at hk
          exact hg0 k hk
      have hg1' : ∀ k n, aget (aset gens id gen) k = some (n + 1) →
          ∃ p, aget (aset gens id gen) p = some n ∧ childVia d p k := by
        intro k n hk
        rw [aset, aget_cons] at hk
        by_cases hik : id = k
        · rw [if_pos hik] at hk
          injection hk with hgen
          obtain ⟨p, hp, hcv⟩ := hq1 (id, gen) (List.mem_cons_self _ _)
            n hgen
          exact ⟨p, hlift p n hp, hik ▸ hcv⟩
        · rw [if_neg hik] at hk
          obtain ⟨p, hp, hcv⟩ := hg1 k n hk
          exact ⟨p, hlift p n hp, hcv⟩
      obtain ⟨ihA, ihB, ihC, ihD⟩ := ih hsync' hq0' hq1' hg0' hg1'
      refine ⟨?_, ?_, ihC, ihD⟩
      · intro k v hk
        exact ihA k v (hlift k v hk)
      · intro e he
        rcases List.mem_cons.mp he with rfl | h
        · have h2 := ihA id gen hsetid
          rw [ahas, h2]; rfl
        · exact ihB e (List.mem_append_left _ h)

/-- The seeded BFS run: roots all processed, assigned keys visible, and
the parent-generation property. -/
theorem bfsGenerations_spec (d : Data) :
    (∀ k, k ∈ rootIds d → ahas (bfsGenerations d) k = true)
    ∧ (∀ k, ahas (bfsGenerations d) k = true → k ∈ peopleIds d)
    ∧ (∀ k n, aget (bfsGenerations d) k = some (n + 1) →
        ∃ p, aget (bfsGenerations d) p = some n ∧ childVia d p k) := by
  have h := bfs_spec d ((rootIds d).map (fun id => (id, 0))) [] []
    (by intro k; simp [ahas, aget])
    (by intro e he
        obtain ⟨id, hid, rfl⟩ := List.mem_map.mp he
        exact (mem_rootIds.mp hid).1)
    (by intro e he n hn
        obtain ⟨id, hid, rfl⟩ := List.mem_map.mp he
        exact absurd hn (by omega))
    (by intro k hk; rw [ahas] at hk; simp [aget] at hk)
    (by intro k n hk; simp [aget] at hk)
  obtain ⟨hA, hB, hC, hD⟩ := h
  exact ⟨fun k hk => hB (k, 0) (List.mem_map.mpr ⟨k, hk, rfl⟩), hC, hD⟩

/-- Every root is assigned generation 0 by the BFS. -/
theorem bfsGenerations_root_zero (d : Data) (k : String)
    (hk : k ∈ rootIds d) : aget (bfsGenerations d) k = some 0 := by
  obtain ⟨hroots, hvis, hparent⟩ := bfsGenerations_spec d
  have hhas := hroots k hk
  rw [ahas] at hhas
  rcases hag : aget (bfsGenerations d) k with _ | v
  · rw [hag] at hhas; cases hhas
  · rcases v with _ | n
    · rfl
    · obtain ⟨p, hp, hcv⟩ := hparent k n hag
      obtain ⟨fam, hfam, hcf⟩ := childVia_family hcv
      have hvisk : k ∈ peopleIds d := (mem_rootIds.mp hk).1
      have hchild := childOf_has_of_child d fam k hfam hcf
        (peopleIds_not_hidden hvisk)
      have hno := (mem_rootIds.mp hk).2
      rw [hno] at hchild
      cases hchild

/-- The default pass preserves existing assignments. -/
theorem defaultPass_preserve :
    ∀ (l : List String) (g : List (String × Nat)) (k : String) (v : Nat),
      aget g k = some v →
      aget (l.foldl (fun g id => if ahas g id then g else aset g id 0) g)
        k = some v
  | [], g, k, v, h => h
  | id :: l, g, k, v, h => by
      rw [List.foldl_cons]
      apply defaultPass_preserve l
      by_cases hh : ahas g id = true
      · rw [if_pos hh]; exact h
      · rw [if_neg hh, aset, aget_cons]
        by_cases hik : id = k
        · subst hik
          rw [ahas, h] at hh
          exact absurd rfl hh
        · rw [if_neg hik]; exact h

/-- The default pass assigns every listed id. -/
theorem defaultPass_mem :
    ∀ (l : List String) (g : List (String × Nat)) (k : String), k ∈ l →
      ∃ v, aget (l.foldl
        (fun g id => if ahas g id then g else aset g id 0) g) k = some v
  | [], g, k, h => absurd h (List.not_mem_nil k)
  | id :: l, g, k, h => by
      rw [List.foldl_cons]
      rcases List.mem_cons.mp h with hik | h'
      · rw [hik]
        by_cases hh : ahas g id = true
        · rw [if_pos hh]
          rw [ahas] at hh
          rcases hag : aget g id with _ | v
          · rw [hag] at hh; cases hh
          · exact ⟨v, defaultPass_preserve l g id v hag⟩
        · rw [if_neg hh]
          exact ⟨0, defaultPass_preserve l _ id 0
            (by rw [aset, aget_cons, if_pos rfl])⟩
      · exact defaultPass_mem l _ k h'

/-- The default pass assigns generation 0 to every listed id the BFS did
not reach. -/
theorem defaultPass_none :
    ∀ (l : List String) (g : List (String × Nat)) (k : String),
      aget g k = none → k ∈ l →
      aget (l.foldl
        (fun g id => if ahas g id then g else aset g id 0) g) k = some 0
  | [], g, k, hnone, h => absurd h (List.not_mem_nil k)
  | id :: l, g, k, hnone, h => by
      rw [List.foldl_cons]
      rcases List.mem_cons.mp h with hik | h'
      · rw [hik] at hnone ⊢
        have hh : ¬ ahas g id = true := by
          rw [ahas, hnone]
          exact fun x => by cases x
        rw [if_neg hh]
        exact defaultPass_preserve l _ id 0
          (by rw [aset, aget_cons, if_pos rfl])
      · by_cases hh : ahas g id = true
        · rw [if_pos hh]
          exact defaultPass_none l g k hnone h'
        · rw [if_neg hh]
          by_cases hik : id = k
          · subst hik
            exact defaultPass_preserve l _ id 0
              (by rw [aset, aget_cons, if_pos rfl])
          · exact defaultPass_none l _ k
              (by rw [aset, aget_cons, if_neg hik]; exact hnone) h'

/-! ## Claim C8 -/

/-- C8: the generation assigner gives every visible person a generation:
roots (visible, no `childOf` entry) get 0; every person the BFS reaches
at generation `n + 1` has a parent assigned generation `n` through one of
that parent's families; and every visible person the BFS does not reach
defaults to generation 0. -/
theorem claim_c8_generations (d : Data) :
    (∀ id, id ∈ peopleIds d →
      ∃ g, aget (calculateGenerations d) id = some g)
    ∧ (∀ id, id ∈ rootIds d → aget (calculateGenerations d) id = some 0)
    ∧ (∀ id, id ∈ peopleIds d → aget (bfsGenerations d) id = none →
        aget (calculateGenerations d) id = some 0)
    ∧ (∀ id n, aget (bfsGenerations d) id = some (n + 1) →
        ∃ p, aget (calculateGenerations d) p = some n ∧
          childVia d p id) := by
  obtain ⟨hroots, hvis, hparent⟩ := bfsGenerations_spec d
  refine ⟨?_, ?_, ?_, ?_⟩
  · intro id hid
    rw [calculateGenerations]
    exact defaultPass_mem (peopleIds d) _ id hid
  · intro id hid
    rw [calculateGenerations]
    exact defaultPass_preserve _ _ id 0 (bfsGenerations_root_zero d id hid)
  · intro id hid hnone
    rw [calculateGenerations]
    exact defaultPass_none _ _ id hnone hid
  · intro id n hsome
    obtain ⟨p, hp, hcv⟩ := hparent id n hsome
    rw [calculateGenerations]
    exact ⟨p, defaultPass_preserve _ _ p n hp, hcv⟩

/-- A concrete dataset for the C8 witness: `A` is a root parent of `B`,
`C` is a disconnected root, and `D` is the child of an unknown person
`Z` (so `D` is neither a root nor reachable). -/
def dFam : Data :=
  { people := [⟨"A", "Alex", "M"⟩, ⟨"B", "Beth", "F"⟩,
               ⟨"C", "Cleo", "F"⟩, ⟨"D", "Drew", "M"⟩]
  , families := [⟨["A"], ["B"]⟩, ⟨["Z"], ["D"]⟩]
  , hidden := [] }

/-- Witness for C8 at `dFam`: the root `A` gets 0, the reached child `B`
gets its parent's generation plus one, and the unreached `D` defaults
to 0. -/
theorem claim_c8_generations_witness :
    ("A" ∈ peopleIds dFam) ∧ ("A" ∈ rootIds dFam)
    ∧ ("D" ∈ peopleIds dFam)
    ∧ aget (bfsGenerations dFam) "D" = none
    ∧ aget (bfsGenerations dFam) "B" = some 1
    ∧ (∃ g, aget (calculateGenerations dFam) "A" = some g)
    ∧ aget (calculateGenerations dFam) "A" = some 0
    ∧ aget (calculateGenerations dFam) "D" = some 0
    ∧ (∃ p, aget (calculateGenerations dFam) p = some 0 ∧
        childVia dFam p "B") := by
  have hD : aget (bfsGenerations dFam) "D" = none := by
    simp +decide [bfsGenerations, bfs, rootIds, bfsChildren, peopleIds,
      visiblePeople, childOf, parentIn, ahas, aget, aset, dFam, peopleHas]
  have hB : aget (bfsGenerations dFam) "B" = some 1 := by
    simp +decide [bfsGenerations, bfs, rootIds, bfsChildren, peopleIds,
      visiblePeople, childOf, parentIn, ahas, aget, aset, dFam, peopleHas]
  exact ⟨by decide, by decide, by decide, hD, hB,
    (claim_c8_generations dFam).1 "A" (by decide),
    (claim_c8_generations dFam).2.1 "A" (by decide),
    (claim_c8_generations dFam).2.2.1 "D" (by decide) hD,
    (claim_c8_generations dFam).2.2.2 "B" 0 hB⟩

end FamTree
